import Mathlib

/-!
A shallow embedding of the zapdb storage and query engine (`src/lib.rs`,
`src/optimizer.rs`) and proofs about it.

Modelling conventions:
* `HashMap<String, _>` becomes an association list with lookup by key
  equality; iteration order is the list order.
* `f64` payloads are modelled as exact rationals; the source's float
  equality `(a - b).abs() < f64::EPSILON` is modelled with the exact
  rational machine epsilon `2 ^ (-52)`.  NaN and rounding are not modelled.
* `DashMap<Value, Vec<usize>>` (a per-column index) becomes an association
  list of buckets; `entry(v)` finds the first bucket whose key equals `v`
  under the source's `Value` equality, mirroring hash-map semantics for
  values whose equality is hash-consistent.
* The Merkle tree over blake3 row hashes is modelled by its list of leaf
  rows (the hash is treated as injective), which is all the code ever
  compares.
* File I/O, encryption, compression and WAL byte framing are outside the
  embedding; the WAL is modelled as the list of logged entries, and WAL
  appends are modelled as always succeeding.
-/

namespace ZapDB

/-- `DataType` from `src/lib.rs`. -/
inductive DataType where
  | integer
  | string
  | float
  | boolean
  | datetime
  | uuid
  | json
deriving DecidableEq, Repr

/-- `Constraint` from `src/lib.rs`. -/
inductive Constraint where
  | notNull
  | unique
  | foreignKey (table : String) (column : String)
deriving DecidableEq, Repr

/-- `Column` from `src/lib.rs`. -/
structure Column where
  name : String
  dataType : DataType
  constraints : List Constraint
deriving DecidableEq, Repr

/-- `f64::EPSILON`, as an exact rational. -/
def f64Epsilon : Rat := 1 / 2 ^ 52

/-- `Value` from `src/lib.rs`.  Payloads of `Float` are exact rationals,
`DateTime` is its integer timestamp, `Uuid` its 128-bit number and `Json`
its canonical string rendering. -/
inductive Value where
  | integer (i : Int)
  | str (s : String)
  | float (q : Rat)
  | boolean (b : Bool)
  | datetime (t : Int)
  | uuid (u : Nat)
  | json (j : String)
  | null
deriving DecidableEq, Repr

/-- `impl PartialEq for Value`: structural within a variant, floats equal
when they differ by less than machine epsilon, mismatched variants are
never equal. -/
def valueEq : Value → Value → Bool
  | .integer a, .integer b => a == b
  | .str a, .str b => a == b
  | .float a, .float b => decide (|a - b| < f64Epsilon)
  | .boolean a, .boolean b => a == b
  | .datetime a, .datetime b => a == b
  | .uuid a, .uuid b => a == b
  | .json a, .json b => a == b
  | .null, .null => true
  | _, _ => false

/-- `impl PartialOrd for Value`: a total order inside each listed variant,
`None` across variants (and on `Json`/`Null`, which the source omits). -/
def valuePartialCmp : Value → Value → Option Ordering
  | .integer a, .integer b => some (compare a b)
  | .str a, .str b => some (compare a b)
  | .float a, .float b => some (compare a b)
  | .boolean a, .boolean b => some (compare a b)
  | .datetime a, .datetime b => some (compare a b)
  | .uuid a, .uuid b => some (compare a b)
  | _, _ => none

/-- `impl Ord for Value`: `partial_cmp` with incomparable pairs collapsed
to `Equal`. -/
def valueCmp (a b : Value) : Ordering :=
  (valuePartialCmp a b).getD .eq

/-- `true` when the value is not a `Float`. -/
def noFloatValue : Value → Bool
  | .float _ => false
  | _ => true

/-- A row: `HashMap<String, Value>` as an association list. -/
abbrev Row := List (String × Value)

/-- `HashMap::get` on a row. -/
def rowGet (r : Row) (k : String) : Option Value :=
  (r.find? (fun p => p.1 == k)).map (·.2)

/-- `HashMap::insert` on a row: replace the value of an existing key,
otherwise add the binding. -/
def rowInsert : Row → String → Value → Row
  | [], k, v => [(k, v)]
  | (k', v') :: rest, k, v =>
    if k' == k then (k', v) :: rest else (k', v') :: rowInsert rest k v

/-- `HashMap::extend`: insert every binding of `r` into `l`
(right-hand values win on key collision). -/
def rowExtend (l r : Row) : Row :=
  r.foldl (fun acc p => rowInsert acc p.1 p.2) l

/-- `Option<&Value> == Option<&Value>` (used by the constraint checker and
the join condition). -/
def optValueEq : Option Value → Option Value → Bool
  | some a, some b => valueEq a b
  | none, none => true
  | _, _ => false

/-- `Operator` from `src/lib.rs`. -/
inductive Operator where
  | eq
  | notEq
  | gt
  | gte
  | lt
  | lte
deriving DecidableEq, Repr

/-- `Condition` from `src/lib.rs`. -/
structure Condition where
  column : String
  operator : Operator
  value : Value
deriving DecidableEq, Repr

/-- `JoinType` from `src/lib.rs`. -/
inductive JoinType where
  | inner
  | left
  | right
deriving DecidableEq, Repr

/-- `Join` from `src/lib.rs`. -/
structure Join where
  joinType : JoinType
  targetTable : String
  onCondition : String × String
deriving DecidableEq, Repr

/-- `AggregateFunction` from `src/lib.rs`. -/
inductive AggregateFunction where
  | count
  | sum
  | avg
  | min
  | max
deriving DecidableEq, Repr

/-- `Query` from `src/lib.rs`.  The fields of `AggregateQuery` are inlined
into the `aggregate` constructor (`Box<Query>` becomes a plain
`Option Query`). -/
inductive Query where
  | matchAll
  | condition (c : Condition)
  | and (qs : List Query)
  | or (qs : List Query)
  | join (j : Join)
  | aggregate (function : AggregateFunction) (column : String) (filter : Option Query)

/-- A per-column index: `DashMap<Value, Vec<usize>>` as a bucket list. -/
abbrev Index := List (Value × List Nat)

/-- `index.get(&v)`: the position list of the first bucket whose key
equals `v`. -/
def indexGet (idx : Index) (v : Value) : Option (List Nat) :=
  (idx.find? (fun p => valueEq p.1 v)).map (·.2)

/-- `index.entry(v).or_insert_with(Vec::new).push(i)`: append `i` to the
bucket keyed by a value equal to `v`, creating the bucket if absent. -/
def indexPush : Index → Value → Nat → Index
  | [], v, i => [(v, [i])]
  | (k, ps) :: rest, v, i =>
    if valueEq k v then (k, ps ++ [i]) :: rest
    else (k, ps) :: indexPush rest v i

/-- The `for item in index.iter() { if test(item.key()) { results.extend(..) } }`
loops of `execute_query`: collect the positions of every bucket whose key
satisfies `p`. -/
def indexScan (idx : Index) (p : Value → Bool) : List Nat :=
  idx.foldl (fun acc kps => if p kps.1 then acc ++ kps.2 else acc) []

/-- The index-building loop shared by `create_index`, `load` and the
rebuilds in `update_internal`/`delete_internal`: for each row position in
order, push the position under the row's value for `col` (absent columns
are skipped). -/
def buildIndexAux (col : String) : Nat → List Row → Index → Index
  | _, [], idx => idx
  | i, r :: rs, idx =>
    buildIndexAux col (i + 1) rs
      (match rowGet r col with
       | some v => indexPush idx v i
       | none => idx)

/-- Build the index for `col` over `data` from scratch. -/
def buildIndex (data : List Row) (col : String) : Index :=
  buildIndexAux col 0 data []

/-- `Table` from `src/lib.rs`; the Merkle tree is represented by its leaf
rows. -/
structure Table where
  name : String
  columns : List Column
  data : List Row
  indexes : List (String × Index)
  merkle : Option (List Row)
deriving DecidableEq

/-- `Table::build_merkle_tree`: recompute the tree from the current rows. -/
def buildMerkleTree (t : Table) : Table :=
  { t with merkle := some t.data }

/-- `Table::verify_integrity`: recompute and compare against the cached
tree; a table with no cached tree passes. -/
def tableVerifyIntegrity (t : Table) : Bool :=
  match t.merkle with
  | some leaves => leaves == t.data
  | none => true

/-- The database's `HashMap<String, Table>` as an association list. -/
abbrev Tables := List (String × Table)

/-- Assoc-list lookup by string key (`HashMap::get`). -/
def lookupStr {α : Type} : List (String × α) → String → Option α
  | [], _ => none
  | (k, v) :: rest, key => if k == key then some v else lookupStr rest key

/-- Assoc-list store by string key (`HashMap::insert` /
mutation through `get_mut`). -/
def storeStr {α : Type} : List (String × α) → String → α → List (String × α)
  | [], key, v => [(key, v)]
  | (k, v') :: rest, key, v =>
    if k == key then (k, v) :: rest else (k, v') :: storeStr rest key v

/-- `tables.get(name)`. -/
def tablesGet (ts : Tables) (name : String) : Option Table :=
  lookupStr ts name

/-- Write back a (possibly mutated) table under its name. -/
def tablesSet (ts : Tables) (name : String) (t : Table) : Tables :=
  storeStr ts name t

/-- The per-operator comparison of `evaluate_condition`: `==`, `!=` from
`PartialEq`, `>`/`>='/`<`/`<=` from `PartialOrd`. -/
def opTest (op : Operator) (v condVal : Value) : Bool :=
  match op with
  | .eq => valueEq v condVal
  | .notEq => !(valueEq v condVal)
  | .gt => valuePartialCmp v condVal == some .gt
  | .gte => valuePartialCmp v condVal == some .gt || valuePartialCmp v condVal == some .eq
  | .lt => valuePartialCmp v condVal == some .lt
  | .lte => valuePartialCmp v condVal == some .lt || valuePartialCmp v condVal == some .eq

/-- `Database::evaluate_condition`: a row whose column is absent fails
every operator. -/
def evaluateCondition (row : Row) (c : Condition) : Bool :=
  match rowGet row c.column with
  | some v => opTest c.operator v c.value
  | none => false

/-- The `HashSet::extend` step of the `Or` branch, with the model's
deterministic first-occurrence order. -/
def unionExtend (acc : List Nat) (s : List Nat) : List Nat :=
  s.foldl (fun a i => if a.contains i then a else a ++ [i]) acc

mutual
/-- `Database::execute_query`: positions of the rows matching a predicate
tree.  `Join`/`Aggregate` nodes return no positions (they are handled at
the `select` layer). -/
def executeQuery (table : Table) : Query → List Nat
  | .aggregate _ _ _ => []
  | .join _ => []
  | .matchAll => List.range table.data.length
  | .condition c =>
    match lookupStr table.indexes c.column with
    | some idx =>
      match c.operator with
      | .eq => (indexGet idx c.value).getD []
      | .notEq => indexScan idx (fun k => !(valueEq k c.value))
      | .gt => indexScan idx (fun k => valuePartialCmp k c.value == some .gt)
      | .gte => indexScan idx (fun k =>
          valuePartialCmp k c.value == some .gt || valuePartialCmp k c.value == some .eq)
      | .lt => indexScan idx (fun k => valuePartialCmp k c.value == some .lt)
      | .lte => indexScan idx (fun k =>
          valuePartialCmp k c.value == some .lt || valuePartialCmp k c.value == some .eq)
    | none =>
      (List.range table.data.length).filter
        (fun i => evaluateCondition (table.data.getD i []) c)
  | .and qs =>
    if qs.isEmpty then List.range table.data.length
    else
      match executeQueryList table qs with
      | [] => []
      | s0 :: rest => rest.foldl (fun acc s => acc.filter (fun i => s.contains i)) s0
  | .or qs =>
    (executeQueryList table qs).foldl (fun acc s => unionExtend acc s) []

/-- The recursive evaluation of a list of sub-queries. -/
def executeQueryList (table : Table) : List Query → List (List Nat)
  | [] => []
  | q :: qs => executeQuery table q :: executeQueryList table qs
end

mutual
/-- The per-row predicate semantics of §4.6 of the spec: `MatchAll` is
true, a `Condition` is `evaluate_condition`, `And` is conjunction over the
children, `Or` disjunction; `Join`/`Aggregate` nodes denote no per-row
predicate. -/
def rowMatches : Query → Row → Bool
  | .matchAll, _ => true
  | .condition c, r => evaluateCondition r c
  | .and qs, r => allMatch qs r
  | .or qs, r => anyMatch qs r
  | .join _, _ => false
  | .aggregate _ _ _, _ => false

/-- Conjunction of the children's per-row predicates. -/
def allMatch : List Query → Row → Bool
  | [], _ => true
  | q :: qs, r => rowMatches q r && allMatch qs r

/-- Disjunction of the children's per-row predicates. -/
def anyMatch : List Query → Row → Bool
  | [], _ => false
  | q :: qs, r => rowMatches q r || anyMatch qs r
end

mutual
/-- A predicate tree built only from `MatchAll`, `Condition`, `And` and
`Or` (the four forms `execute_query` fully supports). -/
def wellFormedQuery : Query → Bool
  | .matchAll => true
  | .condition _ => true
  | .and qs => wellFormedList qs
  | .or qs => wellFormedList qs
  | .join _ => false
  | .aggregate _ _ _ => false

/-- All queries in the list are well-formed. -/
def wellFormedList : List Query → Bool
  | [] => true
  | q :: qs => wellFormedQuery q && wellFormedList qs
end

mutual
/-- `QueryPlanner::estimate_cost`: 1 for a condition on an indexed column,
10 for a condition on a non-indexed column, the sum of the children for
`And`/`Or`, and the sentinel 100 for everything else. -/
def estimateCost (table : Table) : Query → Nat
  | .condition c => if (lookupStr table.indexes c.column).isSome then 1 else 10
  | .and qs => estimateCostList table qs
  | .or qs => estimateCostList table qs
  | _ => 100

/-- Sum of the estimated costs of a list of queries. -/
def estimateCostList (table : Table) : List Query → Nat
  | [] => 0
  | q :: qs => estimateCost table q + estimateCostList table qs
end

/-- `QueryPlanner::optimize_query`: sort the children of a top-level `And`
by ascending estimated cost (a stable sort, as Rust's `sort_by_key`);
every other query shape passes through unchanged. -/
def optimizeQuery (table : Table) (q : Query) : Query :=
  match q with
  | .and qs =>
    .and (qs.mergeSort (fun a b => decide (estimateCost table a ≤ estimateCost table b)))
  | _ => q

/-- The row positions `select` computes for a non-join, non-aggregate
query: plan, then execute. -/
def selectPositions (table : Table) (q : Query) : List Nat :=
  executeQuery table (optimizeQuery table q)

/-- `table.data.iter().any(|r| r.get(&col) == Some(val))`, optionally
skipping one row position (the update case's `i != *index`). -/
def anyRowWithValue (data : List Row) (col : String) (v : Value) (exclude : Option Nat) : Bool :=
  go 0 data
where
  go : Nat → List Row → Bool
  | _, [] => false
  | i, r :: rs =>
    (decide (exclude ≠ some i) && optValueEq (rowGet r col) (some v)) || go (i + 1) rs

/-- The data-type admission check of `insert_internal`: the value's
variant must agree with the declared type, and `Null` is accepted for any
type. -/
def typeMatches : DataType → Value → Bool
  | _, .null => true
  | .integer, .integer _ => true
  | .string, .str _ => true
  | .float, .float _ => true
  | .boolean, .boolean _ => true
  | .datetime, .datetime _ => true
  | .uuid, .uuid _ => true
  | .json, .json _ => true
  | _, _ => false

/-- One constraint of one column, exactly as the loops in
`insert_internal` (`exclude = none`) and `update_internal`
(`exclude = some i`) evaluate it. -/
def checkConstraint (tables : Tables) (table : Table) (colName : String)
    (value : Option Value) (exclude : Option Nat) :
    Constraint → Except String Unit
  | .notNull =>
    match value with
    | none => .error s!"Column {colName} cannot be null"
    | some v =>
      if valueEq v .null then .error s!"Column {colName} cannot be null" else .ok ()
  | .unique =>
    match value with
    | some v =>
      if anyRowWithValue table.data colName v exclude then
        .error s!"Column {colName} must be unique"
      else .ok ()
    | none => .ok ()
  | .foreignKey fkTable fkColumn =>
    match value with
    | some v =>
      match tablesGet tables fkTable with
      | none => .error s!"Foreign key table {fkTable} not found"
      | some foreignTable =>
        if !(anyRowWithValue foreignTable.data fkColumn v none) then
          .error s!"Foreign key violation on column {colName}"
        else .ok ()
    | none => .ok ()

/-- Run the constraint list of one column in order, stopping at the first
violation. -/
def checkConstraints (tables : Tables) (table : Table) (colName : String)
    (value : Option Value) (exclude : Option Nat) :
    List Constraint → Except String Unit
  | [] => .ok ()
  | c :: cs => do
    checkConstraint tables table colName value exclude c
    checkConstraints tables table colName value exclude cs

/-- The per-column body of `insert_internal`'s checking loop: constraints
in order, then the data-type check for a present value, then the
missing-column check. -/
def insertCheckColumn (tables : Tables) (table : Table) (row : Row) (col : Column) :
    Except String Unit := do
  let value := rowGet row col.name
  checkConstraints tables table col.name value none col.constraints
  match value with
  | some v =>
    if !typeMatches col.dataType v then
      let n := col.name
      .error s!"Invalid data type for column {n}"
    else .ok ()
  | none =>
    if !(col.constraints.contains .notNull) then .ok ()
    else
      let n := col.name
      .error s!"Missing column: {n}"

/-- `insert_internal`'s checking loop over the declared columns. -/
def insertCheckColumns (tables : Tables) (table : Table) (row : Row) :
    List Column → Except String Unit
  | [] => .ok ()
  | col :: cols => do
    insertCheckColumn tables table row col
    insertCheckColumns tables table row cols

/-- `Database::insert_internal`: check every column, then append the row,
maintain the indexes incrementally and rebuild the Merkle tree. -/
def insertInternal (tables : Tables) (tableName : String) (row : Row) :
    Except String Tables := do
  match tablesGet tables tableName with
  | none => .error s!"Table {tableName} not found"
  | some table => do
    insertCheckColumns tables table row table.columns
    let newIndex := table.data.length
    let indexes := table.indexes.map (fun p =>
      match rowGet row p.1 with
      | some v => (p.1, indexPush p.2 v newIndex)
      | none => p)
    let table := buildMerkleTree { table with data := table.data ++ [row], indexes := indexes }
    .ok (tablesSet tables tableName table)

/-- Rebuild every existing per-column index from the current rows and then
the Merkle tree (the `if updated_count > 0` / `if deleted_count > 0`
blocks of `update_internal` and `delete_internal`). -/
def rebuildIndexesAndMerkle (t : Table) : Table :=
  buildMerkleTree { t with indexes := t.indexes.map (fun p => (p.1, buildIndex t.data p.1)) }

/-- The per-column constraint loop `update_internal` runs on one updated
row (no data-type or missing-column check there). -/
def updateCheckColumns (tables : Tables) (table : Table) (updatedRow : Row) (i : Nat) :
    List Column → Except String Unit
  | [] => .ok ()
  | col :: cols => do
    checkConstraints tables table col.name (rowGet updatedRow col.name) (some i) col.constraints
    updateCheckColumns tables table updatedRow i cols

/-- `update_internal`'s outer checking loop: for every matched position,
apply the update function to a copy of the row and check it against the
(not yet updated) table. -/
def updateChecks (tables : Tables) (table : Table) (f : Row → Row) :
    List Nat → Except String Unit
  | [] => .ok ()
  | i :: rest => do
    updateCheckColumns tables table (f (table.data.getD i [])) i table.columns
    updateChecks tables table f rest

/-- `Database::update_internal`: evaluate the query, check every updated
row, then mutate the matched rows in place; if anything changed, rebuild
every index and the Merkle tree.  Returns the updated-row count. -/
def updateInternal (tables : Tables) (tableName : String) (q : Query) (f : Row → Row) :
    Except String (Tables × Nat) := do
  match tablesGet tables tableName with
  | none => .error s!"Table {tableName} not found"
  | some table => do
    let indices := executeQuery table q
    let updatedCount := indices.length
    updateChecks tables table f indices
    let newData := indices.foldl (fun d i => d.set i (f (d.getD i []))) table.data
    let table := { table with data := newData }
    let table := if updatedCount > 0 then rebuildIndexesAndMerkle table else table
    .ok (tablesSet tables tableName table, updatedCount)

/-- The row-vector rewrite of `delete_internal`: keep the rows whose
position is not marked for deletion. -/
def removeAtPositions (data : List Row) (toDelete : List Nat) : List Row :=
  go 0 data
where
  go : Nat → List Row → List Row
  | _, [] => []
  | i, r :: rs => (if toDelete.contains i then [] else [r]) ++ go (i + 1) rs

/-- `Database::delete_internal`: evaluate the query, drop the matched
rows, and if anything was deleted rebuild every index and the Merkle
tree.  Returns the deleted-row count. -/
def deleteInternal (tables : Tables) (tableName : String) (q : Query) :
    Except String (Tables × Nat) := do
  match tablesGet tables tableName with
  | none => .error s!"Table {tableName} not found"
  | some table => do
    let indices := executeQuery table q
    let deletedCount := indices.length
    let table := { table with data := removeAtPositions table.data indices }
    let table := if deletedCount > 0 then rebuildIndexesAndMerkle table else table
    .ok (tablesSet tables tableName table, deletedCount)

/-- `Database::create_table` (its table-map effect; the WAL append is
modelled as succeeding). -/
def createTableDb (tables : Tables) (name : String) (columns : List Column) :
    Except String Tables :=
  if (tablesGet tables name).isSome then .error s!"Table {name} already exists"
  else .ok (tablesSet tables name
    { name := name, columns := columns, data := [], indexes := [], merkle := none })

/-- `Database::create_index`: build an index over the current rows of an
existing column and store it. -/
def createIndexDb (tables : Tables) (tableName : String) (columnName : String) :
    Except String Tables :=
  match tablesGet tables tableName with
  | none => .error s!"Table {tableName} not found"
  | some table =>
    if !(table.columns.any (fun c => c.name == columnName)) then
      .error s!"Column {columnName} not found"
    else
      .ok (tablesSet tables tableName
        { table with indexes := storeStr table.indexes columnName (buildIndex table.data columnName) })

/-- One buffered transaction operation, as built by `Transaction::insert`,
`Transaction::update` and `Transaction::delete` (the update function is
carried alongside its operation). -/
inductive TxOp where
  | insertOp (tableName : String) (row : Row)
  | updateOp (tableName : String) (q : Query) (f : Row → Row)
  | deleteOp (tableName : String) (q : Query)

/-- Apply one buffered operation to the table map, as the loop body of
`commit` does. -/
def applyTxOp (tables : Tables) : TxOp → Except String Tables
  | .insertOp tableName row => insertInternal tables tableName row
  | .updateOp tableName q f => (updateInternal tables tableName q f).map (·.1)
  | .deleteOp tableName q => (deleteInternal tables tableName q).map (·.1)

/-- The application loop of `Database::commit`: `orig` is the clone taken
before the loop; on the first error the clone is restored and the error
returned. -/
def commitGo (orig cur : Tables) : List TxOp → Tables × Option String
  | [] => (cur, none)
  | op :: rest =>
    match applyTxOp cur op with
    | .ok t => commitGo orig t rest
    | .error e => (orig, some e)

/-- `Database::commit` (its table-map effect): WAL appends are modelled as
succeeding, then the operations are applied in order with
clone-and-restore rollback.  Returns the table map after `commit` and the
error, if any. -/
def commitTables (tables : Tables) (ops : List TxOp) : Tables × Option String :=
  commitGo tables tables ops

/-- Plain sequential application of the buffered operations, with no
rollback: the reference for `commit`'s success path. -/
def applyOps (tables : Tables) : List TxOp → Except String Tables
  | [] => .ok tables
  | op :: rest =>
    match applyTxOp tables op with
    | .ok t => applyOps t rest
    | .error e => .error e

/-- `WalEntry` from `src/lib.rs` (the `Update` entry carries no update
function). -/
inductive WalEntry where
  | createTable (name : String) (columns : List Column)
  | insertEntry (tableName : String) (row : Row)
  | updateEntry (tableName : String) (q : Query)
  | deleteEntry (tableName : String) (q : Query)

/-- `true` exactly on `Update` WAL entries. -/
def isUpdateEntry : WalEntry → Bool
  | .updateEntry _ _ => true
  | _ => false

/-- `Database::apply_wal_entry`: apply one replayed entry through the
public API, discarding its error (`let _ = ...`); `Update` entries do
nothing. -/
def applyWalEntry (tables : Tables) : WalEntry → Tables
  | .createTable name columns =>
    match createTableDb tables name columns with
    | .ok t => t
    | .error _ => tables
  | .insertEntry tableName row =>
    match insertInternal tables tableName row with
    | .ok t => t
    | .error _ => tables
  | .updateEntry _ _ => tables
  | .deleteEntry tableName q =>
    match deleteInternal tables tableName q with
    | .ok t => t.1
    | .error _ => tables

/-- `Database::replay_wal` (on an already decoded entry list). -/
def replayWal (tables : Tables) (entries : List WalEntry) : Tables :=
  entries.foldl applyWalEntry tables

/-- The per-table rebuild loop of `Database::load`: reset the index map,
build an index for every `Unique`-constrained column from the restored
rows, and rebuild the Merkle tree. -/
def rebuildTable (t : Table) : Table :=
  let uniqueCols := t.columns.filter (fun c => c.constraints.contains .unique)
  buildMerkleTree { t with indexes := uniqueCols.map (fun c => (c.name, buildIndex t.data c.name)) }

/-- The rebuild loop of `load` over every restored table. -/
def rebuildTables (ts : Tables) : Tables :=
  ts.map (fun p => (p.1, rebuildTable p.2))

/-- `Database::load`, after the snapshot bytes have been decrypted,
decompressed and deserialized into a table map: rebuild indexes and
Merkle trees, then replay the WAL. -/
def loadTables (snapshot : Tables) (wal : List WalEntry) : Tables :=
  replayWal (rebuildTables snapshot) wal

/-- The null-padding of an unmatched row in an outer join: insert `Null`
under every column name of the other table. -/
def padWithNulls (row : Row) (cols : List Column) : Row :=
  cols.foldl (fun acc c => rowInsert acc c.name .null) row

/-- `Database::execute_join_query`, with the imperative `results` vector
and `found_match` flag made explicit. -/
def executeJoinQuery (leftTable rightTable : Table) (j : Join) : List Row :=
  let leftCol := j.onCondition.1
  let rightCol := j.onCondition.2
  match j.joinType with
  | .inner =>
    leftTable.data.foldl (fun acc leftRow =>
      rightTable.data.foldl (fun acc2 rightRow =>
        if optValueEq (rowGet leftRow leftCol) (rowGet rightRow rightCol) then
          acc2 ++ [rowExtend leftRow rightRow]
        else acc2) acc) []
  | .left =>
    leftTable.data.foldl (fun acc leftRow =>
      let inner := rightTable.data.foldl (fun st rightRow =>
        if optValueEq (rowGet leftRow leftCol) (rowGet rightRow rightCol) then
          (st.1 ++ [rowExtend leftRow rightRow], true)
        else st) (acc, false)
      if !inner.2 then inner.1 ++ [padWithNulls leftRow rightTable.columns]
      else inner.1) []
  | .right =>
    rightTable.data.foldl (fun acc rightRow =>
      let inner := leftTable.data.foldl (fun st leftRow =>
        if optValueEq (rowGet leftRow leftCol) (rowGet rightRow rightCol) then
          (st.1 ++ [rowExtend leftRow rightRow], true)
        else st) (acc, false)
      if !inner.2 then inner.1 ++ [padWithNulls rightRow leftTable.columns]
      else inner.1) []

/-- The `Sum` accumulation of `execute_aggregate_query`: integers and
floats coerce to the float accumulator, other variants are ignored. -/
def sumValues (values : List Value) : Rat :=
  values.foldl (fun s v =>
    match v with
    | .integer i => s + (i : Rat)
    | .float q => s + q
    | _ => s) 0

/-- The `Avg` accumulation: sum and count of the numeric values. -/
def sumCountValues (values : List Value) : Rat × Nat :=
  values.foldl (fun sc v =>
    match v with
    | .integer i => (sc.1 + (i : Rat), sc.2 + 1)
    | .float q => (sc.1 + q, sc.2 + 1)
    | _ => sc) (0, 0)

/-- `Iterator::min` under the source's `Ord for Value` (the first minimal
element wins). -/
def minValue (values : List Value) : Option Value :=
  values.foldl (fun acc v =>
    match acc with
    | none => some v
    | some m => if valueCmp v m == .lt then some v else some m) none

/-- `Iterator::max` under the source's `Ord for Value` (the last maximal
element wins). -/
def maxValue (values : List Value) : Option Value :=
  values.foldl (fun acc v =>
    match acc with
    | none => some v
    | some m => if valueCmp v m == .lt then some m else some v) none

/-- The rows `execute_aggregate_query` aggregates when a filter is
present: the filter's positions resolved against the row vector. -/
def filterSelectedRows (table : Table) (filter : Query) : List Row :=
  (executeQuery table filter).map (fun i => table.data.getD i [])

/-- `Database::execute_aggregate_query`. -/
def executeAggregateQuery (table : Table) (function : AggregateFunction)
    (column : String) (filter : Option Query) : Except String Value :=
  let rows : List Row :=
    match filter with
    | some f => filterSelectedRows table f
    | none => table.data
  let values : List Value := rows.filterMap (fun r => rowGet r column)
  match function with
  | .count => .ok (.integer values.length)
  | .sum => .ok (.float (sumValues values))
  | .avg =>
    let sc := sumCountValues values
    if sc.2 = 0 then .ok (.float 0) else .ok (.float (sc.1 / (sc.2 : Rat)))
  | .min =>
    match minValue values with
    | some v => .ok v
    | none => .error "No values to aggregate"
  | .max =>
    match maxValue values with
    | some v => .ok v
    | none => .error "No values to aggregate"

/-- A bare table holding exactly the given rows (used to phrase
"aggregate with no filter over only those rows"). -/
def rowsOnlyTable (rows : List Row) : Table :=
  { name := "", columns := [], data := rows, indexes := [], merkle := none }

/-- A table in which no row holds a `Float` value. -/
def tableNoFloat (t : Table) : Bool :=
  t.data.all (fun r => r.all (fun p => noFloatValue p.2))

/-- Every stored index is exactly the index the code would build from the
current rows (invariant I2 of the spec). -/
def indexesConsistent (t : Table) : Bool :=
  t.indexes.all (fun p => p.2 == buildIndex t.data p.1)

/-- Two distinct row positions holding equal non-null values in a column. -/
def dupNonNull : List Row → String → Bool
  | [], _ => false
  | r :: rs, col =>
    (match rowGet r col with
     | some v => !(v == .null) && rs.any (fun r' => optValueEq (rowGet r' col) (some v))
     | none => false)
    || dupNonNull rs col

/-- Invariant I3 of the spec fails: some `Unique` column of the table
holds two equal non-null values in distinct rows. -/
def uniqueViolation (t : Table) : Bool :=
  t.columns.any (fun c => c.constraints.contains .unique && dupNonNull t.data c.name)

/-- The way a built index relates to the rows it was built from, when no
float values are involved: every bucket key is non-float and every bucket
member holds exactly the bucket key in the indexed column; every row
position with a value in the column appears in the bucket keyed by that
value; and bucket keys are distinct. -/
def IndexInv (data : List Row) (col : String) (idx : Index) : Prop :=
  (∀ kps ∈ idx, noFloatValue kps.1 = true ∧
    ∀ i ∈ kps.2, rowGet (data.getD i []) col = some kps.1)
  ∧ (∀ i v, rowGet (data.getD i []) col = some v → ∃ ps, (v, ps) ∈ idx ∧ i ∈ ps)
  ∧ (idx.map Prod.fst).Nodup

/-- `true` when the two values carry the same variant tag. -/
def sameVariant : Value → Value → Bool
  | .integer _, .integer _ => true
  | .str _, .str _ => true
  | .float _, .float _ => true
  | .boolean _, .boolean _ => true
  | .datetime _, .datetime _ => true
  | .uuid _, .uuid _ => true
  | .json _, .json _ => true
  | .null, .null => true
  | _, _ => false

/-!  Concrete example databases used by the witnesses and
counterexamples below. -/

/-- A table with a `Unique` integer column holding the values 1 and 2. -/
def exTableU : Table :=
  { name := "t", columns := [⟨"u", .integer, [.unique]⟩],
    data := [[("u", .integer 1)], [("u", .integer 2)]], indexes := [], merkle := none }

/-- The table map holding just `exTableU`. -/
def exTablesU : Tables := [("t", exTableU)]

/-- An update function that sets the unique column of every matched row to
the same constant. -/
def exSetU : Row → Row := fun r => rowInsert r "u" (.integer 3)

/-- The table map `update` produces from `exTablesU` when every row's
unique column is set to 3 (an `Option` in case of error). -/
def exUpdateResult : Option Tables :=
  match updateInternal exTablesU "t" .matchAll exSetU with
  | .ok p => some p.1
  | .error _ => none

/-- A table whose `Unique` column already holds a null. -/
def exTableNull : Table :=
  { name := "t", columns := [⟨"u", .integer, [.unique]⟩],
    data := [[("u", .null)]], indexes := [], merkle := none }

/-- The two float rows of the index/scan divergence example: `0` and
`2 ^ (-53)`, which are equal under epsilon-equality. -/
def exFloatTable : Table :=
  { name := "t", columns := [⟨"c", .float, []⟩],
    data := [[("c", .float 0)], [("c", .float ((2 ^ 53 : Rat)⁻¹))]],
    indexes := [], merkle := none }

/-- `exFloatTable` with the index on `c` the code itself builds. -/
def exFloatTableIdx : Table :=
  { exFloatTable with indexes := [("c", buildIndex exFloatTable.data "c")] }

/-- The equality probe `c = 2 ^ (-52)`: epsilon-equal to the second row's
value but not to the first (and hence not to the index bucket's key). -/
def exFloatCond : Condition := ⟨"c", .eq, .float ((2 ^ 52 : Rat)⁻¹)⟩

/-- A two-column table with an index on `a` only, for the planner
examples. -/
def exPlanTable : Table :=
  { name := "t", columns := [⟨"a", .integer, []⟩, ⟨"b", .integer, []⟩],
    data := [], indexes := [("a", [])], merkle := none }

/-- A cheap leaf: condition on the indexed column `a` (cost 1). -/
def exCondIdx : Query := .condition ⟨"a", .eq, .integer 0⟩

/-- An expensive leaf: condition on the non-indexed column `b` (cost 10). -/
def exCondNoIdx : Query := .condition ⟨"b", .eq, .integer 0⟩

/-- A single-row left table whose row does not contain the join column. -/
def exLeftTable : Table :=
  { name := "l", columns := [⟨"x", .integer, []⟩],
    data := [[("x", .integer 1)]], indexes := [], merkle := none }

/-- A single-row right table whose row does not contain the join column. -/
def exRightTable : Table :=
  { name := "r", columns := [⟨"y", .integer, []⟩],
    data := [[("y", .integer 2)]], indexes := [], merkle := none }

/-- A one-table snapshot for the `load` witness. -/
def exSnapTable : Table :=
  { name := "t", columns := [⟨"u", .integer, [.unique]⟩],
    data := [[("u", .integer 7)]], indexes := [], merkle := none }

/-- A WAL holding one `Update` entry followed by one `Insert` entry. -/
def exWal : List WalEntry :=
  [.updateEntry "t" .matchAll, .insertEntry "t" [("u", .integer 8)]]

/-- A small indexed integer table with a consistent index, for the
`select` witness. -/
def exIntTable : Table :=
  { name := "t", columns := [⟨"a", .integer, []⟩],
    data := [[("a", .integer 1)], [("a", .integer 2)]],
    indexes := [("a", buildIndex [[("a", .integer 1)], [("a", .integer 2)]] "a")],
    merkle := none }

/-- The probe query over `exIntTable`. -/
def exIntQuery : Query := .condition ⟨"a", .eq, .integer 2⟩

/-!  ### Generic helper lemmas -/

theorem mem_insertAbsentFold {s acc : List Nat} {i : Nat} :
    i ∈ s.foldl (fun a j => if a.contains j then a else a ++ [j]) acc ↔ i ∈ acc ∨ i ∈ s := by
  induction s generalizing acc with
  | nil => simp
  | cons x xs ih =>
    simp only [List.foldl_cons, ih]
    by_cases hx : acc.contains x
    · simp only [hx, if_pos]
      constructor
      · rintro (h | h)
        · exact Or.inl h
        · exact Or.inr (List.mem_cons_of_mem _ h)
      · rintro (h | h)
        · exact Or.inl h
        · rcases List.mem_cons.mp h with rfl | h
          · exact Or.inl (by simpa [List.contains_iff_exists_mem_beq, beq_iff_eq] using hx)
          · exact Or.inr h
    · simp only [hx, if_neg, Bool.false_eq_true, not_false_iff]
      constructor
      · rintro (h | h)
        · rcases List.mem_append.mp h with h | h
          · exact Or.inl h
          · exact Or.inr (by simpa using List.mem_cons.mpr (Or.inl (by simpa using h)))
        · exact Or.inr (List.mem_cons_of_mem _ h)
      · rintro (h | h)
        · exact Or.inl (List.mem_append.mpr (Or.inl h))
        · rcases List.mem_cons.mp h with rfl | h
          · exact Or.inl (List.mem_append.mpr (Or.inr (by simp)))
          · exact Or.inr h

theorem mem_unionExtend {acc s : List Nat} {i : Nat} :
    i ∈ unionExtend acc s ↔ i ∈ acc ∨ i ∈ s :=
  mem_insertAbsentFold

theorem mem_unionFold {ls : List (List Nat)} {acc : List Nat} {i : Nat} :
    i ∈ ls.foldl (fun acc s => unionExtend acc s) acc ↔ i ∈ acc ∨ ∃ s ∈ ls, i ∈ s := by
  induction ls generalizing acc with
  | nil => simp
  | cons x xs ih =>
    simp only [List.foldl_cons, ih, mem_unionExtend]
    constructor
    · rintro ((h | h) | ⟨s, hs, h⟩)
      · exact Or.inl h
      · exact Or.inr ⟨x, List.mem_cons_self x xs, h⟩
      · exact Or.inr ⟨s, List.mem_cons_of_mem _ hs, h⟩
    · rintro (h | ⟨s, hs, h⟩)
      · exact Or.inl (Or.inl h)
      · rcases List.mem_cons.mp hs with rfl | hs
        · exact Or.inl (Or.inr h)
        · exact Or.inr ⟨s, hs, h⟩

theorem mem_interFold {rest : List (List Nat)} {s0 : List Nat} {i : Nat} :
    i ∈ rest.foldl (fun acc s => acc.filter (fun j => s.contains j)) s0 ↔
      i ∈ s0 ∧ ∀ s ∈ rest, i ∈ s := by
  induction rest generalizing s0 with
  | nil => simp
  | cons x xs ih =>
    simp only [List.foldl_cons, ih, List.mem_filter]
    constructor
    · rintro ⟨⟨h0, hx⟩, hall⟩
      refine ⟨h0, ?_⟩
      intro s hs
      rcases List.mem_cons.mp hs with rfl | hs
      · simpa [List.contains_iff_exists_mem_beq, beq_iff_eq] using hx
      · exact hall s hs
    · rintro ⟨h0, hall⟩
      refine ⟨⟨h0, ?_⟩, fun s hs => hall s (List.mem_cons_of_mem _ hs)⟩
      simpa [List.contains_iff_exists_mem_beq, beq_iff_eq] using hall x (List.mem_cons_self x xs)

theorem mem_indexScanFold {idx : Index} {p : Value → Bool} {acc : List Nat} {i : Nat} :
    i ∈ idx.foldl (fun acc kps => if p kps.1 then acc ++ kps.2 else acc) acc ↔
      i ∈ acc ∨ ∃ kps ∈ idx, p kps.1 = true ∧ i ∈ kps.2 := by
  induction idx generalizing acc with
  | nil => simp
  | cons x xs ih =>
    simp only [List.foldl_cons, ih]
    by_cases hp : p x.1
    · simp only [hp, if_pos, List.mem_append]
      constructor
      · rintro ((h | h) | ⟨kps, hk, hpk, hi⟩)
        · exact Or.inl h
        · exact Or.inr ⟨x, List.mem_cons_self x xs, hp, h⟩
        · exact Or.inr ⟨kps, List.mem_cons_of_mem _ hk, hpk, hi⟩
      · rintro (h | ⟨kps, hk, hpk, hi⟩)
        · exact Or.inl (Or.inl h)
        · rcases List.mem_cons.mp hk with rfl | hk
          · exact Or.inl (Or.inr hi)
          · exact Or.inr ⟨kps, hk, hpk, hi⟩
    · simp only [hp, if_neg, Bool.false_eq_true, not_false_iff]
      constructor
      · rintro (h | ⟨kps, hk, hpk, hi⟩)
        · exact Or.inl h
        · exact Or.inr ⟨kps, List.mem_cons_of_mem _ hk, hpk, hi⟩
      · rintro (h | ⟨kps, hk, hpk, hi⟩)
        · exact Or.inl h
        · rcases List.mem_cons.mp hk with rfl | hk
          · exact absurd hpk (by simp [hp])
          · exact Or.inr ⟨kps, hk, hpk, hi⟩

theorem mem_indexScan {idx : Index} {p : Value → Bool} {i : Nat} :
    i ∈ indexScan idx p ↔ ∃ kps ∈ idx, p kps.1 = true ∧ i ∈ kps.2 := by
  simpa using (@mem_indexScanFold idx p [] i)

/-!  ### Value equality lemmas -/

theorem valueEq_iff_eq {a b : Value} (h : noFloatValue a = true) :
    valueEq a b = true ↔ a = b := by
  cases a <;> cases b <;> simp_all [valueEq, noFloatValue]

theorem valueEq_refl {a : Value} (h : noFloatValue a = true) : valueEq a a = true :=
  (valueEq_iff_eq h).mpr rfl

theorem rowGet_noFloat {r : Row} {c : String} {v : Value}
    (hr : r.all (fun p => noFloatValue p.2) = true) (h : rowGet r c = some v) :
    noFloatValue v = true := by
  unfold rowGet at h
  rcases hfind : r.find? (fun p => p.1 == c) with _ | p
  · simp [hfind] at h
  · have hmem := List.mem_of_find?_eq_some hfind
    have := List.all_eq_true.mp hr p hmem
    simp [hfind] at h
    subst h
    exact this

/-!  ### Index construction lemmas -/

theorem rowGet_getD_some_lt {data : List Row} {i : Nat} {col : String} {v : Value}
    (h : rowGet (data.getD i []) col = some v) : i < data.length := by
  by_contra hge
  push_neg at hge
  rw [List.getD_eq_default _ _ hge] at h
  simp [rowGet] at h

theorem getD_append_lt {data : List Row} {r : Row} {i : Nat} (h : i < data.length) :
    (data ++ [r]).getD i [] = data.getD i [] := by
  simp [List.getD_eq_getElem?_getD, List.getElem?_append, h]

theorem getD_append_self {data : List Row} {r : Row} :
    (data ++ [r]).getD data.length [] = r := by
  simp [List.getD_eq_getElem?_getD, List.getElem?_concat_length]

theorem getD_append_gt {data : List Row} {r : Row} {i : Nat} (h : data.length < i) :
    (data ++ [r]).getD i [] = [] := by
  apply List.getD_eq_default
  simp
  omega

theorem buildIndexAux_append {col : String} (xs ys : List Row) :
    ∀ (i : Nat) (idx : Index),
      buildIndexAux col i (xs ++ ys) idx =
        buildIndexAux col (i + xs.length) ys (buildIndexAux col i xs idx) := by
  induction xs with
  | nil => intro i idx; simp [buildIndexAux]
  | cons r rs ih =>
    intro i idx
    simp only [List.cons_append, buildIndexAux, List.length_cons, List.append_eq]
    rw [ih]
    have harith : i + 1 + rs.length = i + (rs.length + 1) := by omega
    rw [harith]

theorem buildIndex_concat {data : List Row} {r : Row} {col : String} :
    buildIndex (data ++ [r]) col =
      match rowGet r col with
      | some v => indexPush (buildIndex data col) v data.length
      | none => buildIndex data col := by
  unfold buildIndex
  rw [buildIndexAux_append]
  cases h : rowGet r col <;> simp [buildIndexAux, h]

theorem indexPush_cases {idx : Index} {v : Value} {n : Nat} {kps : Value × List Nat}
    (h : kps ∈ indexPush idx v n) :
    kps ∈ idx ∨
      (∃ ps, (kps.1, ps) ∈ idx ∧ valueEq kps.1 v = true ∧ kps.2 = ps ++ [n]) ∨
      kps = (v, [n]) := by
  induction idx with
  | nil =>
    simp [indexPush] at h
    exact Or.inr (Or.inr h)
  | cons x xs ih =>
    rcases x with ⟨k, ps⟩
    by_cases hkv : valueEq k v
    · simp only [indexPush, hkv, if_pos, List.mem_cons] at h
      rcases h with rfl | h
      · exact Or.inr (Or.inl ⟨ps, List.mem_cons_self _ _, by simpa using hkv, rfl⟩)
      · exact Or.inl (List.mem_cons_of_mem _ h)
    · simp only [indexPush, hkv, Bool.false_eq_true, if_neg, not_false_iff, List.mem_cons] at h
      rcases h with rfl | h
      · exact Or.inl (List.mem_cons_self _ _)
      · rcases ih h with h | ⟨ps', hmem, hveq, heq⟩ | h
        · exact Or.inl (List.mem_cons_of_mem _ h)
        · exact Or.inr (Or.inl ⟨ps', List.mem_cons_of_mem _ hmem, hveq, heq⟩)
        · exact Or.inr (Or.inr h)

theorem indexPush_mono {idx : Index} {v : Value} {n : Nat} {k : Value} {ps : List Nat}
    (h : (k, ps) ∈ idx) :
    ∃ qs, (k, qs) ∈ indexPush idx v n ∧ ps ⊆ qs := by
  induction idx with
  | nil => simp at h
  | cons x xs ih =>
    rcases x with ⟨k0, ps0⟩
    by_cases hkv : valueEq k0 v
    · simp only [indexPush, hkv, if_pos]
      rcases List.mem_cons.mp h with heq | h
      · injection heq with hk hps
        subst hk
        subst hps
        exact ⟨ps ++ [n], List.mem_cons_self _ _, List.subset_append_left _ _⟩
      · exact ⟨ps, List.mem_cons_of_mem _ h, List.Subset.refl _⟩
    · simp only [indexPush, hkv, Bool.false_eq_true, if_neg, not_false_iff]
      rcases List.mem_cons.mp h with heq | h
      · injection heq with hk hps
        subst hk
        subst hps
        exact ⟨ps, List.mem_cons_self _ _, List.Subset.refl _⟩
      · obtain ⟨qs, hq, hsub⟩ := ih h
        exact ⟨qs, List.mem_cons_of_mem _ hq, hsub⟩

theorem indexPush_self {idx : Index} {v : Value} {n : Nat}
    (hkeys : ∀ kps ∈ idx, noFloatValue kps.1 = true) :
    ∃ qs, (v, qs) ∈ indexPush idx v n ∧ n ∈ qs := by
  induction idx with
  | nil => exact ⟨[n], by simp [indexPush], by simp⟩
  | cons x xs ih =>
    rcases x with ⟨k0, ps0⟩
    by_cases hkv : valueEq k0 v
    · have hk0 : k0 = v := (valueEq_iff_eq (hkeys (k0, ps0) (List.mem_cons_self _ _))).mp hkv
      subst hk0
      exact ⟨ps0 ++ [n], by simp [indexPush, hkv], by simp⟩
    · simp only [indexPush, hkv, Bool.false_eq_true, if_neg, not_false_iff]
      obtain ⟨qs, hq, hn⟩ := ih (fun kps hk => hkeys kps (List.mem_cons_of_mem _ hk))
      exact ⟨qs, List.mem_cons_of_mem _ hq, hn⟩

theorem indexPush_keys {idx : Index} {v : Value} {n : Nat} :
    (indexPush idx v n).map Prod.fst =
      if idx.any (fun kps => valueEq kps.1 v) then idx.map Prod.fst
      else idx.map Prod.fst ++ [v] := by
  induction idx with
  | nil => simp [indexPush]
  | cons x xs ih =>
    rcases x with ⟨k0, ps0⟩
    by_cases hkv : valueEq k0 v
    · simp [indexPush, hkv]
    · simp only [indexPush, hkv, Bool.false_eq_true, if_neg, not_false_iff, List.map_cons,
        List.any_cons, Bool.false_or, ih]
      by_cases hany : xs.any (fun kps => valueEq kps.1 v) <;> simp [hany]

theorem indexPush_nodupKeys {idx : Index} {v : Value} {n : Nat}
    (hv : noFloatValue v = true)
    (hnd : (idx.map Prod.fst).Nodup) :
    ((indexPush idx v n).map Prod.fst).Nodup := by
  rw [indexPush_keys]
  by_cases hany : idx.any (fun kps => valueEq kps.1 v)
  · simpa [hany] using hnd
  · simp only [hany, Bool.false_eq_true, if_neg, not_false_iff]
    rw [List.nodup_append]
    refine ⟨hnd, List.nodup_singleton _, ?_⟩
    intro a ha hb
    simp at hb
    rw [hb] at ha
    obtain ⟨kps, hk, hfst⟩ := List.mem_map.mp ha
    have hkv : valueEq kps.1 v = true := by
      rw [hfst]
      exact valueEq_refl hv
    exact hany (List.any_eq_true.mpr ⟨kps, hk, hkv⟩)

theorem buildIndex_inv {col : String} {data : List Row}
    (hnf : ∀ r ∈ data, r.all (fun p => noFloatValue p.2) = true) :
    IndexInv data col (buildIndex data col) := by
  induction data using List.reverseRecOn with
  | nil =>
    refine ⟨by simp [buildIndex, buildIndexAux], ?_, by simp [buildIndex, buildIndexAux]⟩
    intro i v h
    simp [rowGet, List.getD] at h
  | append_singleton xs r ih =>
    have hnfxs : ∀ r' ∈ xs, r'.all (fun p => noFloatValue p.2) = true :=
      fun r' hr' => hnf r' (List.mem_append_left _ hr')
    have hnfr : r.all (fun p => noFloatValue p.2) = true :=
      hnf r (List.mem_append_right _ (List.mem_singleton.mpr rfl))
    obtain ⟨h1, h2, h3⟩ := ih hnfxs
    rw [buildIndex_concat]
    cases hrg : rowGet r col with
    | none =>
      refine ⟨?_, ?_, h3⟩
      · intro kps hk
        obtain ⟨hnfk, hmem⟩ := h1 kps hk
        refine ⟨hnfk, fun i hi => ?_⟩
        have hlt := rowGet_getD_some_lt (hmem i hi)
        rw [getD_append_lt hlt]
        exact hmem i hi
      · intro i v h
        rcases Nat.lt_trichotomy i xs.length with hlt | heq | hgt
        · rw [getD_append_lt hlt] at h
          exact h2 i v h
        · subst heq
          rw [getD_append_self] at h
          rw [hrg] at h
          exact absurd h (by simp)
        · rw [getD_append_gt hgt] at h
          simp [rowGet] at h
    | some v =>
      have hvnf : noFloatValue v = true := rowGet_noFloat hnfr hrg
      refine ⟨?_, ?_, ?_⟩
      · intro kps hk
        rcases indexPush_cases hk with hmem | ⟨ps, hmem, hveq, heq⟩ | heq
        · obtain ⟨hnfk, hm⟩ := h1 kps hmem
          refine ⟨hnfk, fun i hi => ?_⟩
          have hlt := rowGet_getD_some_lt (hm i hi)
          rw [getD_append_lt hlt]
          exact hm i hi
        · obtain ⟨hnfk, hm⟩ := h1 (kps.1, ps) hmem
          refine ⟨hnfk, fun i hi => ?_⟩
          rw [heq] at hi
          rcases List.mem_append.mp hi with hi | hi
          · have hlt := rowGet_getD_some_lt (hm i hi)
            rw [getD_append_lt hlt]
            exact hm i hi
          · have : i = xs.length := by simpa using hi
            subst this
            rw [getD_append_self, hrg]
            have : kps.1 = v := (valueEq_iff_eq hnfk).mp hveq
            rw [this]
        · rw [heq]
          refine ⟨hvnf, fun i hi => ?_⟩
          have : i = xs.length := by simpa using hi
          subst this
          rw [getD_append_self, hrg]
      · intro i w hw
        rcases Nat.lt_trichotomy i xs.length with hlt | heq | hgt
        · rw [getD_append_lt hlt] at hw
          obtain ⟨ps, hmem, hi⟩ := h2 i w hw
          obtain ⟨qs, hq, hsub⟩ := indexPush_mono hmem
          exact ⟨qs, hq, hsub hi⟩
        · subst heq
          rw [getD_append_self, hrg] at hw
          obtain rfl : v = w := by simpa using hw
          obtain ⟨qs, hq, hn⟩ := indexPush_self (fun kps hk => (h1 kps hk).1)
          exact ⟨qs, hq, hn⟩
        · rw [getD_append_gt hgt] at hw
          simp [rowGet] at hw
      · exact indexPush_nodupKeys hvnf h3

theorem nodupKeys_snd_eq {l : Index} (hnd : (l.map Prod.fst).Nodup)
    {k : Value} {a b : List Nat} (ha : (k, a) ∈ l) (hb : (k, b) ∈ l) : a = b := by
  induction l with
  | nil => simp at ha
  | cons x xs ih =>
    rw [List.map_cons, List.nodup_cons] at hnd
    rcases List.mem_cons.mp ha with heq | ha' <;> rcases List.mem_cons.mp hb with heq' | hb'
    · rw [← heq] at heq'
      exact (Prod.mk.inj (heq'.symm)).2
    · exfalso
      obtain ⟨rfl, rfl⟩ : x.1 = k ∧ x.2 = a := by
        constructor <;> simp [← heq]
      exact hnd.1 (List.mem_map.mpr ⟨(x.1, b), hb', rfl⟩)
    · exfalso
      obtain ⟨rfl, rfl⟩ : x.1 = k ∧ x.2 = b := by
        constructor <;> simp [← heq']
      exact hnd.1 (List.mem_map.mpr ⟨(x.1, a), ha', rfl⟩)
    · exact ih hnd.2 ha' hb'

theorem mem_scan_buildIndex {data : List Row} {col : String} {p : Value → Bool} {i : Nat}
    (hnf : ∀ r ∈ data, r.all (fun q => noFloatValue q.2) = true) :
    i ∈ indexScan (buildIndex data col) p ↔
      ∃ v, rowGet (data.getD i []) col = some v ∧ p v = true := by
  obtain ⟨h1, h2, _⟩ := @buildIndex_inv col data hnf
  rw [mem_indexScan]
  constructor
  · rintro ⟨kps, hk, hp, hi⟩
    exact ⟨kps.1, (h1 kps hk).2 i hi, hp⟩
  · rintro ⟨v, hv, hp⟩
    obtain ⟨ps, hmem, hi⟩ := h2 i v hv
    exact ⟨(v, ps), hmem, hp, hi⟩

theorem mem_get_buildIndex {data : List Row} {col : String} {v : Value} {i : Nat}
    (hnf : ∀ r ∈ data, r.all (fun q => noFloatValue q.2) = true) :
    i ∈ (indexGet (buildIndex data col) v).getD [] ↔
      rowGet (data.getD i []) col = some v := by
  obtain ⟨h1, h2, h3⟩ := @buildIndex_inv col data hnf
  constructor
  · intro hi
    unfold indexGet at hi
    rcases hfind : (buildIndex data col).find? (fun p => valueEq p.1 v) with _ | kps
    · rw [hfind] at hi
      simp at hi
    · rw [hfind] at hi
      simp only [Option.map_some', Option.getD_some] at hi
      have hp := List.find?_some hfind
      have hmem := List.mem_of_find?_eq_some hfind
      have hk1 : kps.1 = v := (valueEq_iff_eq (h1 kps hmem).1).mp (by simpa using hp)
      have := (h1 kps hmem).2 i hi
      rw [hk1] at this
      exact this
  · intro hv
    obtain ⟨ps, hmem, hi⟩ := h2 i v hv
    have hlt := rowGet_getD_some_lt hv
    have hvnf : noFloatValue v = true := by
      have hrow : data.getD i [] ∈ data := by
        have : data.getD i [] = data[i] := by
          simp [List.getD_eq_getElem?_getD, List.getElem?_eq_getElem hlt]
        rw [this]
        exact List.getElem_mem hlt
      exact rowGet_noFloat (hnf _ hrow) hv
    have hsome : ((buildIndex data col).find? (fun p => valueEq p.1 v)).isSome := by
      rw [List.find?_isSome]
      exact ⟨(v, ps), hmem, valueEq_refl hvnf⟩
    rcases hfind : (buildIndex data col).find? (fun p => valueEq p.1 v) with _ | kps
    · rw [hfind] at hsome
      simp at hsome
    · have hp := List.find?_some hfind
      have hmem' := List.mem_of_find?_eq_some hfind
      have hk1 : kps.1 = v := (valueEq_iff_eq (h1 kps hmem').1).mp (by simpa using hp)
      have hkps : kps = (v, kps.2) := by
        rw [← hk1]
      have hsnd : kps.2 = ps := nodupKeys_snd_eq h3 (hkps ▸ hmem') hmem
      unfold indexGet
      rw [hfind]
      simp only [Option.map_some', Option.getD_some]
      rw [hsnd]
      exact hi

/-!  ### Query evaluation characterization -/

theorem getD_mem {data : List Row} {i : Nat} (h : i < data.length) :
    data.getD i [] ∈ data := by
  have : data.getD i [] = data[i] := by
    simp [List.getD_eq_getElem?_getD, List.getElem?_eq_getElem h]
  rw [this]
  exact List.getElem_mem h

theorem lookupStr_mem {α : Type} {xs : List (String × α)} {k : String} {v : α}
    (h : lookupStr xs k = some v) : (k, v) ∈ xs := by
  induction xs with
  | nil => simp [lookupStr] at h
  | cons x rest ih =>
    rcases x with ⟨k0, v0⟩
    by_cases hk : k0 == k
    · simp only [lookupStr, hk, if_pos] at h
      obtain rfl := Option.some.inj h
      have : k0 = k := by simpa using hk
      subst this
      exact List.mem_cons_self _ _
    · simp only [lookupStr, hk, Bool.false_eq_true, if_neg, not_false_iff] at h
      exact List.mem_cons_of_mem _ (ih h)

theorem executeQueryList_eq_map {table : Table} {qs : List Query} :
    executeQueryList table qs = qs.map (executeQuery table) := by
  induction qs with
  | nil => simp [executeQueryList]
  | cons q rest ih => simp [executeQueryList, ih]

theorem allMatch_eq_all {qs : List Query} {r : Row} :
    allMatch qs r = qs.all (fun q => rowMatches q r) := by
  induction qs with
  | nil => simp [allMatch]
  | cons q rest ih => simp [allMatch, ih]

theorem anyMatch_eq_any {qs : List Query} {r : Row} :
    anyMatch qs r = qs.any (fun q => rowMatches q r) := by
  induction qs with
  | nil => simp [anyMatch]
  | cons q rest ih => simp [anyMatch, ih]

theorem wellFormedList_eq_all {qs : List Query} :
    wellFormedList qs = qs.all wellFormedQuery := by
  induction qs with
  | nil => simp [wellFormedList]
  | cons q rest ih => simp [wellFormedList, wellFormedQuery, ih]

theorem sizeOf_lt_of_mem_and {q : Query} {qs : List Query} (h : q ∈ qs) :
    sizeOf q < sizeOf (Query.and qs) := by
  have h1 := List.sizeOf_lt_of_mem h
  have h2 : sizeOf (Query.and qs) = 1 + sizeOf qs := by simp
  omega

theorem sizeOf_lt_of_mem_or {q : Query} {qs : List Query} (h : q ∈ qs) :
    sizeOf q < sizeOf (Query.or qs) := by
  have h1 := List.sizeOf_lt_of_mem h
  have h2 : sizeOf (Query.or qs) = 1 + sizeOf qs := by simp
  omega

theorem executeQuery_char {table : Table}
    (hIdx : indexesConsistent table = true)
    (hnf : tableNoFloat table = true) :
    ∀ q : Query, wellFormedQuery q = true →
      ∀ i, i ∈ executeQuery table q ↔
        (i < table.data.length ∧ rowMatches q (table.data.getD i []) = true) := by
  have hnf' : ∀ r ∈ table.data, r.all (fun p => noFloatValue p.2) = true :=
    List.all_eq_true.mp hnf
  suffices H : ∀ (n : Nat) (q : Query), sizeOf q ≤ n → wellFormedQuery q = true →
      ∀ i, i ∈ executeQuery table q ↔
        (i < table.data.length ∧ rowMatches q (table.data.getD i []) = true) by
    exact fun q => H (sizeOf q) q le_rfl
  intro n
  induction n with
  | zero =>
    intro q hle
    exact absurd hle (by cases q <;> simp)
  | succ n ih =>
    intro q hle hwf i
    match q with
    | .join j => simp [wellFormedQuery] at hwf
    | .aggregate f c o => simp [wellFormedQuery] at hwf
    | .matchAll =>
      simp [executeQuery, rowMatches, List.mem_range]
    | .condition c =>
      obtain ⟨col, op, cv⟩ := c
      show i ∈ executeQuery table (.condition ⟨col, op, cv⟩) ↔ _
      cases hlk : lookupStr table.indexes col with
      | none =>
        simp only [executeQuery, hlk]
        rw [List.mem_filter, List.mem_range]
        simp [rowMatches]
      | some idx =>
        have hmem := lookupStr_mem hlk
        have hbeq := List.all_eq_true.mp hIdx _ hmem
        have hidx : idx = buildIndex table.data col := by simpa using hbeq
        subst hidx
        have hrm : ∀ r : Row, (rowMatches (.condition ⟨col, op, cv⟩) r = true) ↔
            ∃ v, rowGet r col = some v ∧ opTest op v cv = true := by
          intro r
          show (evaluateCondition r ⟨col, op, cv⟩ = true) ↔ _
          unfold evaluateCondition
          cases rowGet r col <;> simp
        cases op with
        | eq =>
          simp only [executeQuery, hlk]
          rw [mem_get_buildIndex hnf']
          constructor
          · intro h
            have hlt := rowGet_getD_some_lt h
            have hv : noFloatValue cv = true :=
              rowGet_noFloat (hnf' _ (getD_mem hlt)) h
            exact ⟨hlt, (hrm _).mpr ⟨cv, h, by simpa [opTest] using valueEq_refl hv⟩⟩
          · rintro ⟨hlt, h⟩
            obtain ⟨v, hg, hp⟩ := (hrm _).mp h
            have hvnf : noFloatValue v = true :=
              rowGet_noFloat (hnf' _ (getD_mem hlt)) hg
            have : v = cv := (valueEq_iff_eq hvnf).mp (by simpa [opTest] using hp)
            rw [← this]
            exact hg
        | notEq =>
          simp only [executeQuery, hlk]
          rw [mem_scan_buildIndex hnf']
          constructor
          · rintro ⟨v, hg, hp⟩
            exact ⟨rowGet_getD_some_lt hg, (hrm _).mpr ⟨v, hg, by simpa [opTest] using hp⟩⟩
          · rintro ⟨hlt, h⟩
            obtain ⟨v, hg, hp⟩ := (hrm _).mp h
            exact ⟨v, hg, by simpa [opTest] using hp⟩
        | gt =>
          simp only [executeQuery, hlk]
          rw [mem_scan_buildIndex hnf']
          constructor
          · rintro ⟨v, hg, hp⟩
            exact ⟨rowGet_getD_some_lt hg, (hrm _).mpr ⟨v, hg, by simpa [opTest] using hp⟩⟩
          · rintro ⟨hlt, h⟩
            obtain ⟨v, hg, hp⟩ := (hrm _).mp h
            exact ⟨v, hg, by simpa [opTest] using hp⟩
        | gte =>
          simp only [executeQuery, hlk]
          rw [mem_scan_buildIndex hnf']
          constructor
          · rintro ⟨v, hg, hp⟩
            exact ⟨rowGet_getD_some_lt hg, (hrm _).mpr ⟨v, hg, by simpa [opTest] using hp⟩⟩
          · rintro ⟨hlt, h⟩
            obtain ⟨v, hg, hp⟩ := (hrm _).mp h
            exact ⟨v, hg, by simpa [opTest] using hp⟩
        | lt =>
          simp only [executeQuery, hlk]
          rw [mem_scan_buildIndex hnf']
          constructor
          · rintro ⟨v, hg, hp⟩
            exact ⟨rowGet_getD_some_lt hg, (hrm _).mpr ⟨v, hg, by simpa [opTest] using hp⟩⟩
          · rintro ⟨hlt, h⟩
            obtain ⟨v, hg, hp⟩ := (hrm _).mp h
            exact ⟨v, hg, by simpa [opTest] using hp⟩
        | lte =>
          simp only [executeQuery, hlk]
          rw [mem_scan_buildIndex hnf']
          constructor
          · rintro ⟨v, hg, hp⟩
            exact ⟨rowGet_getD_some_lt hg, (hrm _).mpr ⟨v, hg, by simpa [opTest] using hp⟩⟩
          · rintro ⟨hlt, h⟩
            obtain ⟨v, hg, hp⟩ := (hrm _).mp h
            exact ⟨v, hg, by simpa [opTest] using hp⟩
    | .and qs =>
      rcases qs with _ | ⟨q0, qtl⟩
      · simp [executeQuery, rowMatches, allMatch, List.mem_range]
      · have hwf' : ∀ q' ∈ q0 :: qtl, wellFormedQuery q' = true := by
          have : wellFormedList (q0 :: qtl) = true := by simpa [wellFormedQuery] using hwf
          rw [wellFormedList_eq_all] at this
          exact List.all_eq_true.mp this
        have hih : ∀ q' ∈ q0 :: qtl, ∀ j,
            j ∈ executeQuery table q' ↔
              (j < table.data.length ∧ rowMatches q' (table.data.getD j []) = true) := by
          intro q' hq' j
          have hsz : sizeOf q' ≤ n := by
            have := sizeOf_lt_of_mem_and hq'
            omega
          exact ih q' hsz (hwf' q' hq') j
        show i ∈ executeQuery table (.and (q0 :: qtl)) ↔ _
        have hexec : executeQuery table (.and (q0 :: qtl)) =
            (executeQueryList table qtl).foldl
              (fun acc s => acc.filter (fun j => s.contains j)) (executeQuery table q0) := by
          simp [executeQuery, executeQueryList]
        rw [hexec, mem_interFold, executeQueryList_eq_map]
        constructor
        · rintro ⟨h0, hall⟩
          obtain ⟨hlt, hm0⟩ := (hih q0 (List.mem_cons_self _ _) i).mp h0
          refine ⟨hlt, ?_⟩
          rw [rowMatches, allMatch_eq_all, List.all_eq_true]
          intro q' hq'
          rcases List.mem_cons.mp hq' with rfl | hq'
          · exact hm0
          · have := hall _ (List.mem_map.mpr ⟨q', hq', rfl⟩)
            exact ((hih q' (List.mem_cons_of_mem _ hq') i).mp this).2
        · rintro ⟨hlt, hm⟩
          rw [rowMatches, allMatch_eq_all, List.all_eq_true] at hm
          refine ⟨(hih q0 (List.mem_cons_self _ _) i).mpr
            ⟨hlt, hm q0 (List.mem_cons_self _ _)⟩, ?_⟩
          intro s hs
          obtain ⟨q', hq', rfl⟩ := List.mem_map.mp hs
          exact (hih q' (List.mem_cons_of_mem _ hq') i).mpr
            ⟨hlt, hm q' (List.mem_cons_of_mem _ hq')⟩
    | .or qs =>
      have hwf' : ∀ q' ∈ qs, wellFormedQuery q' = true := by
        have : wellFormedList qs = true := by simpa [wellFormedQuery] using hwf
        rw [wellFormedList_eq_all] at this
        exact List.all_eq_true.mp this
      have hih : ∀ q' ∈ qs, ∀ j,
          j ∈ executeQuery table q' ↔
            (j < table.data.length ∧ rowMatches q' (table.data.getD j []) = true) := by
        intro q' hq' j
        have hsz : sizeOf q' ≤ n := by
          have := sizeOf_lt_of_mem_or hq'
          omega
        exact ih q' hsz (hwf' q' hq') j
      show i ∈ executeQuery table (.or qs) ↔ _
      have hexec : executeQuery table (.or qs) =
          (executeQueryList table qs).foldl (fun acc s => unionExtend acc s) [] := by
        simp [executeQuery]
      rw [hexec, mem_unionFold, executeQueryList_eq_map]
      constructor
      · rintro (h | ⟨s, hs, hi⟩)
        · simp at h
        · obtain ⟨q', hq', rfl⟩ := List.mem_map.mp hs
          obtain ⟨hlt, hm⟩ := (hih q' hq' i).mp hi
          refine ⟨hlt, ?_⟩
          rw [rowMatches, anyMatch_eq_any, List.any_eq_true]
          exact ⟨q', hq', hm⟩
      · rintro ⟨hlt, hm⟩
        rw [rowMatches, anyMatch_eq_any, List.any_eq_true] at hm
        obtain ⟨q', hq', hm'⟩ := hm
        exact Or.inr ⟨executeQuery table q', List.mem_map.mpr ⟨q', hq', rfl⟩,
          (hih q' hq' i).mpr ⟨hlt, hm'⟩⟩

/-!  ### Planner lemmas -/

theorem all_congr_perm {α : Type} {l l' : List α} (h : l.Perm l') (p : α → Bool) :
    l.all p = l'.all p := by
  cases hal : l.all p <;> cases hal' : l'.all p
  · rfl
  · rw [List.all_eq_true] at hal'
    have : l.all p = true :=
      List.all_eq_true.mpr (fun x hx => hal' x (h.mem_iff.mp hx))
    rw [hal] at this
    exact absurd this (by simp)
  · rw [List.all_eq_true] at hal
    have : l'.all p = true :=
      List.all_eq_true.mpr (fun x hx => hal x (h.mem_iff.mpr hx))
    rw [hal'] at this
    exact absurd this (by simp)
  · rfl

theorem optimize_rowMatches {table : Table} {q : Query} {r : Row} :
    rowMatches (optimizeQuery table q) r = rowMatches q r := by
  cases q with
  | and qs =>
    show rowMatches (.and (qs.mergeSort _)) r = rowMatches (.and qs) r
    simp only [rowMatches, allMatch_eq_all]
    exact all_congr_perm (List.mergeSort_perm qs _) _
  | matchAll => rfl
  | condition c => rfl
  | or qs => rfl
  | join j => rfl
  | aggregate f c o => rfl

theorem optimize_wellFormed {table : Table} {q : Query} :
    wellFormedQuery (optimizeQuery table q) = wellFormedQuery q := by
  cases q with
  | and qs =>
    show wellFormedQuery (.and (qs.mergeSort _)) = wellFormedQuery (.and qs)
    simp only [wellFormedQuery, wellFormedList_eq_all]
    exact all_congr_perm (List.mergeSort_perm qs _) _
  | matchAll => rfl
  | condition c => rfl
  | or qs => rfl
  | join j => rfl
  | aggregate f c o => rfl

theorem optimize_and_sorted (table : Table) (qs : List Query) :
    (qs.mergeSort (fun a b => decide (estimateCost table a ≤ estimateCost table b))).Pairwise
      (fun a b => estimateCost table a ≤ estimateCost table b) := by
  have htrans : ∀ a b c : Query,
      decide (estimateCost table a ≤ estimateCost table b) = true →
      decide (estimateCost table b ≤ estimateCost table c) = true →
      decide (estimateCost table a ≤ estimateCost table c) = true := by
    intro a b c hab hbc
    simp only [decide_eq_true_eq] at *
    omega
  have htot : ∀ a b : Query,
      (decide (estimateCost table a ≤ estimateCost table b)
        || decide (estimateCost table b ≤ estimateCost table a)) = true := by
    intro a b
    simp only [Bool.or_eq_true, decide_eq_true_eq]
    omega
  have hs := List.sorted_mergeSort htrans htot qs
  exact hs.imp (fun h => by simpa using h)

/-!  ### Commit lemmas -/

theorem commitGo_spec : ∀ (ops : List TxOp) (orig cur : Tables),
    (match applyOps cur ops with
     | .ok t => commitGo orig cur ops = (t, none)
     | .error e => commitGo orig cur ops = (orig, some e)) := by
  intro ops
  induction ops with
  | nil => intro orig cur; simp [applyOps, commitGo]
  | cons op rest ih =>
    intro orig cur
    simp only [applyOps, commitGo]
    cases h : applyTxOp cur op with
    | ok t => exact ih orig t
    | error e => simp

/-!  ### WAL replay lemmas -/

theorem replayWal_skips_updates : ∀ (wal : List WalEntry) (tables : Tables),
    replayWal tables wal = replayWal tables (wal.filter (fun e => !(isUpdateEntry e))) := by
  intro wal
  induction wal with
  | nil => intro tables; rfl
  | cons e rest ih =>
    intro tables
    cases e with
    | updateEntry n q =>
      show replayWal (applyWalEntry tables _) rest = _
      simpa [isUpdateEntry, applyWalEntry, replayWal] using ih tables
    | createTable n cs =>
      simpa [isUpdateEntry, replayWal] using ih (applyWalEntry tables (.createTable n cs))
    | insertEntry n r =>
      simpa [isUpdateEntry, replayWal] using ih (applyWalEntry tables (.insertEntry n r))
    | deleteEntry n q =>
      simpa [isUpdateEntry, replayWal] using ih (applyWalEntry tables (.deleteEntry n q))

/-!  ### Join lemmas -/

theorem innerFold_spec {cond : Row → Bool} {g : Row → Row} :
    ∀ (rows : List Row) (acc : List Row),
      rows.foldl (fun acc2 r => if cond r then acc2 ++ [g r] else acc2) acc
        = acc ++ (rows.filter cond).map g := by
  intro rows
  induction rows with
  | nil => intro acc; simp
  | cons r rest ih =>
    intro acc
    by_cases hc : cond r
    · simp [hc, ih]
    · simp [hc, ih]

theorem flagFold_spec {cond : Row → Bool} {g : Row → Row} :
    ∀ (rows : List Row) (acc : List Row) (b : Bool),
      rows.foldl (fun st r => if cond r then (st.1 ++ [g r], true) else st) (acc, b)
        = (acc ++ (rows.filter cond).map g, b || !(rows.filter cond).isEmpty) := by
  intro rows
  induction rows with
  | nil => intro acc b; simp
  | cons r rest ih =>
    intro acc b
    by_cases hc : cond r
    · simp [hc, ih]
    · simp [hc, ih]

theorem blockFold_spec {block : Row → List Row} :
    ∀ (rows : List Row) (acc : List Row),
      rows.foldl (fun acc l => acc ++ block l) acc = acc ++ rows.flatMap block := by
  intro rows
  induction rows with
  | nil => intro acc; simp
  | cons r rest ih => intro acc; simp [ih]

theorem innerJoin_eq {leftTable rightTable : Table} {name lc rc : String} :
    executeJoinQuery leftTable rightTable ⟨.inner, name, (lc, rc)⟩
      = leftTable.data.flatMap (fun l =>
          ((rightTable.data.filter
            (fun r => optValueEq (rowGet l lc) (rowGet r rc))).map (fun r => rowExtend l r))) := by
  show leftTable.data.foldl _ [] = _
  have hbody : ∀ (acc : List Row) (l : Row),
      rightTable.data.foldl (fun acc2 rightRow =>
        if optValueEq (rowGet l lc) (rowGet rightRow rc) then acc2 ++ [rowExtend l rightRow]
        else acc2) acc
        = acc ++ ((rightTable.data.filter
            (fun r => optValueEq (rowGet l lc) (rowGet r rc))).map (fun r => rowExtend l r)) :=
    fun acc l => innerFold_spec rightTable.data acc
  calc leftTable.data.foldl (fun acc leftRow =>
        rightTable.data.foldl (fun acc2 rightRow =>
          if optValueEq (rowGet leftRow lc) (rowGet rightRow rc) then
            acc2 ++ [rowExtend leftRow rightRow]
          else acc2) acc) []
      = leftTable.data.foldl (fun acc leftRow =>
          acc ++ ((rightTable.data.filter
            (fun r => optValueEq (rowGet leftRow lc) (rowGet r rc))).map
              (fun r => rowExtend leftRow r))) [] := by
        apply List.foldl_ext
        intro acc l hl
        exact hbody acc l
    _ = _ := by
        rw [blockFold_spec]
        simp

theorem leftJoin_eq {leftTable rightTable : Table} {name lc rc : String} :
    executeJoinQuery leftTable rightTable ⟨.left, name, (lc, rc)⟩
      = leftTable.data.flatMap (fun l =>
          let ms := rightTable.data.filter (fun r => optValueEq (rowGet l lc) (rowGet r rc))
          if ms.isEmpty then [padWithNulls l rightTable.columns]
          else ms.map (fun r => rowExtend l r)) := by
  show leftTable.data.foldl _ [] = _
  calc leftTable.data.foldl (fun acc leftRow =>
        let inner := rightTable.data.foldl (fun st rightRow =>
          if optValueEq (rowGet leftRow lc) (rowGet rightRow rc) then
            (st.1 ++ [rowExtend leftRow rightRow], true)
          else st) (acc, false)
        if !inner.2 then inner.1 ++ [padWithNulls leftRow rightTable.columns] else inner.1) []
      = leftTable.data.foldl (fun acc leftRow =>
          acc ++
            (let ms := rightTable.data.filter
              (fun r => optValueEq (rowGet leftRow lc) (rowGet r rc))
             if ms.isEmpty then [padWithNulls leftRow rightTable.columns]
             else ms.map (fun r => rowExtend leftRow r))) [] := by
        apply List.foldl_ext
        intro acc l hl
        rw [flagFold_spec]
        by_cases hempty : (rightTable.data.filter
            (fun r => optValueEq (rowGet l lc) (rowGet r rc))).isEmpty
        · simp [List.isEmpty_iff.mp hempty]
        · simp [hempty]
    _ = _ := by
        rw [blockFold_spec]
        simp

theorem rightJoin_eq {leftTable rightTable : Table} {name lc rc : String} :
    executeJoinQuery leftTable rightTable ⟨.right, name, (lc, rc)⟩
      = rightTable.data.flatMap (fun r =>
          let ms := leftTable.data.filter (fun l => optValueEq (rowGet l lc) (rowGet r rc))
          if ms.isEmpty then [padWithNulls r leftTable.columns]
          else ms.map (fun l => rowExtend l r)) := by
  show rightTable.data.foldl _ [] = _
  calc rightTable.data.foldl (fun acc rightRow =>
        let inner := leftTable.data.foldl (fun st leftRow =>
          if optValueEq (rowGet leftRow lc) (rowGet rightRow rc) then
            (st.1 ++ [rowExtend leftRow rightRow], true)
          else st) (acc, false)
        if !inner.2 then inner.1 ++ [padWithNulls rightRow leftTable.columns] else inner.1) []
      = rightTable.data.foldl (fun acc rightRow =>
          acc ++
            (let ms := leftTable.data.filter
              (fun l => optValueEq (rowGet l lc) (rowGet rightRow rc))
             if ms.isEmpty then [padWithNulls rightRow leftTable.columns]
             else ms.map (fun l => rowExtend l rightRow))) [] := by
        apply List.foldl_ext
        intro acc r hr
        rw [flagFold_spec]
        by_cases hempty : (leftTable.data.filter
            (fun l => optValueEq (rowGet l lc) (rowGet r rc))).isEmpty
        · simp [List.isEmpty_iff.mp hempty]
        · simp [hempty]
    _ = _ := by
        rw [blockFold_spec]
        simp

theorem rowGet_cons {k0 : String} {v0 : Value} {rest : Row} {k : String} :
    rowGet ((k0, v0) :: rest) k = if k0 = k then some v0 else rowGet rest k := by
  by_cases h : k0 = k
  · simp [rowGet, List.find?_cons, h]
  · simp [rowGet, List.find?_cons, h]

theorem rowGet_rowInsert {l : Row} {k : String} {v : Value} {k' : String} :
    rowGet (rowInsert l k v) k' = if k = k' then some v else rowGet l k' := by
  induction l with
  | nil =>
    by_cases h : k = k'
    · simp [rowInsert, rowGet, List.find?_cons, h]
    · simp [rowInsert, rowGet, List.find?_cons, h]
  | cons p rest ih =>
    rcases p with ⟨k0, v0⟩
    by_cases h0 : k0 = k
    · subst h0
      simp only [rowInsert, beq_self_eq_true, if_pos]
      by_cases h : k0 = k'
      · simp [rowGet_cons, h]
      · simp [rowGet_cons, h]
    · have : (k0 == k) = false := by simpa using h0
      simp only [rowInsert, this, Bool.false_eq_true, if_neg, not_false_iff]
      by_cases h : k0 = k'
      · subst h
        have hkk : k ≠ k0 := fun hh => h0 hh.symm
        simp [rowGet_cons, hkk]
      · simp [rowGet_cons, h, ih]

theorem rowGet_eq_none_of_not_mem_keys {r : Row} {k : String}
    (h : k ∉ r.map Prod.fst) : rowGet r k = none := by
  induction r with
  | nil => rfl
  | cons p rest ih =>
    rcases p with ⟨k0, v0⟩
    simp only [List.map_cons, List.mem_cons] at h
    push_neg at h
    have hne : k0 ≠ k := fun hh => h.1 hh.symm
    rw [rowGet_cons, if_neg hne]
    exact ih h.2

theorem rowGet_rowExtend {l r : Row} (hnd : (r.map Prod.fst).Nodup) (k : String) :
    rowGet (rowExtend l r) k =
      match rowGet r k with
      | some v => some v
      | none => rowGet l k := by
  induction r generalizing l with
  | nil => simp [rowExtend, rowGet]
  | cons p rest ih =>
    rcases p with ⟨k0, v0⟩
    rw [List.map_cons, List.nodup_cons] at hnd
    have hstep : rowExtend l ((k0, v0) :: rest) = rowExtend (rowInsert l k0 v0) rest := by
      simp [rowExtend]
    rw [hstep, ih hnd.2]
    by_cases h : k0 = k
    · subst h
      have : rowGet rest k0 = none := rowGet_eq_none_of_not_mem_keys hnd.1
      rw [this, rowGet_cons]
      simp [rowGet_rowInsert]
    · rw [rowGet_cons]
      simp only [if_neg h]
      cases rowGet rest k with
      | some v => rfl
      | none => simp [rowGet_rowInsert, h]

/-!  ### Constraint extraction lemmas -/

theorem anyRowWithValue_go_any {col : String} {v : Value} :
    ∀ (data : List Row) (i : Nat),
      anyRowWithValue.go col v none i data
        = data.any (fun r => optValueEq (rowGet r col) (some v)) := by
  intro data
  induction data with
  | nil => intro i; rfl
  | cons r rest ih =>
    intro i
    simp [anyRowWithValue.go, ih]

theorem anyRowWithValue_none_eq_any {data : List Row} {col : String} {v : Value} :
    anyRowWithValue data col v none
      = data.any (fun r => optValueEq (rowGet r col) (some v)) := by
  unfold anyRowWithValue
  exact anyRowWithValue_go_any data 0

theorem checkConstraints_ok_all {tables : Tables} {table : Table} {colName : String}
    {value : Option Value} {exclude : Option Nat} {cs : List Constraint}
    (h : checkConstraints tables table colName value exclude cs = .ok ()) :
    ∀ c ∈ cs, checkConstraint tables table colName value exclude c = .ok () := by
  induction cs with
  | nil => simp
  | cons c rest ih =>
    intro c' hc'
    rcases hcc : checkConstraint tables table colName value exclude c with e | u
    · rw [checkConstraints, hcc] at h
      simp [Bind.bind, Except.bind] at h
    · rcases u
      rw [checkConstraints, hcc] at h
      simp only [Bind.bind, Except.bind] at h
      rcases List.mem_cons.mp hc' with rfl | hc'
      · exact hcc
      · exact ih h c' hc'

theorem insertCheckColumns_ok_all {tables : Tables} {table : Table} {row : Row}
    {cols : List Column}
    (h : insertCheckColumns tables table row cols = .ok ()) :
    ∀ col ∈ cols, insertCheckColumn tables table row col = .ok () := by
  induction cols with
  | nil => simp
  | cons c rest ih =>
    intro c' hc'
    rcases hcc : insertCheckColumn tables table row c with e | u
    · rw [insertCheckColumns, hcc] at h
      simp [Bind.bind, Except.bind] at h
    · rcases u
      rw [insertCheckColumns, hcc] at h
      simp only [Bind.bind, Except.bind] at h
      rcases List.mem_cons.mp hc' with rfl | hc'
      · exact hcc
      · exact ih h c' hc'

theorem insertCheckColumn_constraints_ok {tables : Tables} {table : Table} {row : Row}
    {col : Column}
    (h : insertCheckColumn tables table row col = .ok ()) :
    checkConstraints tables table col.name (rowGet row col.name) none col.constraints
      = .ok () := by
  rcases hcc : checkConstraints tables table col.name (rowGet row col.name) none
      col.constraints with e | u
  · rw [insertCheckColumn, hcc] at h
    simp [Bind.bind, Except.bind] at h
  · rcases u
    rfl

theorem insertInternal_ok_checks {tables : Tables} {tableName : String} {row : Row}
    {t' : Tables} {table : Table}
    (htab : tablesGet tables tableName = some table)
    (h : insertInternal tables tableName row = .ok t') :
    insertCheckColumns tables table row table.columns = .ok () := by
  rw [insertInternal, htab] at h
  simp only at h
  rcases hcc : insertCheckColumns tables table row table.columns with e | u
  · rw [hcc] at h
    simp [Bind.bind, Except.bind] at h
  · rcases u
    rfl

/-!  ### Float equality facts for the index/scan divergence example -/

theorem floatEq_zero_small : valueEq (.float 0) (.float ((2 ^ 53 : Rat)⁻¹)) = true := by
  show decide (|(0 : Rat) - (2 ^ 53 : Rat)⁻¹| < f64Epsilon) = true
  rw [decide_eq_true_eq, f64Epsilon]
  norm_num
  rw [abs_of_pos (by norm_num)]
  norm_num

theorem floatEq_zero_eps : valueEq (.float 0) (.float ((2 ^ 52 : Rat)⁻¹)) = false := by
  show decide (|(0 : Rat) - (2 ^ 52 : Rat)⁻¹| < f64Epsilon) = false
  rw [decide_eq_false_iff_not, f64Epsilon]
  norm_num
  rw [abs_of_pos (by norm_num)]

theorem floatEq_small_eps :
    valueEq (.float ((2 ^ 53 : Rat)⁻¹)) (.float ((2 ^ 52 : Rat)⁻¹)) = true := by
  show decide (|(2 ^ 53 : Rat)⁻¹ - (2 ^ 52 : Rat)⁻¹| < f64Epsilon) = true
  rw [decide_eq_true_eq, f64Epsilon]
  norm_num
  rw [abs_of_pos (by norm_num)]
  norm_num

/-!  ### Claim theorems -/

/-- C1: for every starting table map and every transaction, `commit`
either applies every buffered operation in order (returning `Ok` with no
error) or leaves the table map value-equal to where it started and
returns the first operation's error. -/
theorem commit_atomic (tables : Tables) (ops : List TxOp) :
    match applyOps tables ops with
    | .ok t => commitTables tables ops = (t, none)
    | .error e => commitTables tables ops = (tables, some e) :=
  commitGo_spec ops tables tables

/-- C2 (counterexample): the claimed index independence fails on `Float`
values.  `exFloatTableIdx` carries exactly the index the code builds, yet
`select` on the epsilon-equality probe returns no row with the index and
row 1 without it, and row 1 does satisfy the predicate. -/
theorem select_index_scan_disagree :
    selectPositions exFloatTableIdx (.condition exFloatCond) = []
    ∧ selectPositions exFloatTable (.condition exFloatCond) = [1]
    ∧ evaluateCondition (exFloatTable.data.getD 1 []) exFloatCond = true
    ∧ indexesConsistent exFloatTableIdx = true
    ∧ exFloatTableIdx.data = exFloatTable.data := by
  have hbuild : buildIndex exFloatTable.data "c" = [(.float 0, [0, 1])] := by
    show buildIndexAux "c" 0 exFloatTable.data [] = _
    simp only [exFloatTable, buildIndexAux, rowGet, List.find?_cons, beq_self_eq_true,
      Option.map_some']
    simp [indexPush, floatEq_zero_small]
  have h0 : evaluateCondition [("c", Value.float 0)] exFloatCond = false := by
    simp [exFloatCond, evaluateCondition, rowGet, opTest, floatEq_zero_eps]
  have h1 : evaluateCondition [("c", Value.float ((2 ^ 53 : Rat)⁻¹))] exFloatCond = true := by
    simp [exFloatCond, evaluateCondition, rowGet, opTest, floatEq_small_eps]
  refine ⟨?_, ?_, ?_, ?_, rfl⟩
  · show executeQuery exFloatTableIdx (.condition exFloatCond) = []
    have hlk : lookupStr exFloatTableIdx.indexes exFloatCond.column
        = some (buildIndex exFloatTable.data "c") := by
      simp [exFloatTableIdx, exFloatTable, exFloatCond, lookupStr]
    show (match lookupStr exFloatTableIdx.indexes exFloatCond.column with
      | some idx =>
        match exFloatCond.operator with
        | .eq => (indexGet idx exFloatCond.value).getD []
        | .notEq => indexScan idx (fun k => !(valueEq k exFloatCond.value))
        | .gt => indexScan idx (fun k => valuePartialCmp k exFloatCond.value == some .gt)
        | .gte => indexScan idx (fun k =>
            valuePartialCmp k exFloatCond.value == some .gt ||
              valuePartialCmp k exFloatCond.value == some .eq)
        | .lt => indexScan idx (fun k => valuePartialCmp k exFloatCond.value == some .lt)
        | .lte => indexScan idx (fun k =>
            valuePartialCmp k exFloatCond.value == some .lt ||
              valuePartialCmp k exFloatCond.value == some .eq)
      | none =>
        (List.range exFloatTableIdx.data.length).filter
          (fun i => evaluateCondition (exFloatTableIdx.data.getD i []) exFloatCond)) = []
    rw [hlk, hbuild]
    show (indexGet [(.float 0, [0, 1])] exFloatCond.value).getD [] = []
    simp [exFloatCond, indexGet, floatEq_zero_eps]
  · show executeQuery exFloatTable (.condition exFloatCond) = [1]
    have hlk : lookupStr exFloatTable.indexes exFloatCond.column = none := rfl
    show (match lookupStr exFloatTable.indexes exFloatCond.column with
      | some idx =>
        match exFloatCond.operator with
        | .eq => (indexGet idx exFloatCond.value).getD []
        | .notEq => indexScan idx (fun k => !(valueEq k exFloatCond.value))
        | .gt => indexScan idx (fun k => valuePartialCmp k exFloatCond.value == some .gt)
        | .gte => indexScan idx (fun k =>
            valuePartialCmp k exFloatCond.value == some .gt ||
              valuePartialCmp k exFloatCond.value == some .eq)
        | .lt => indexScan idx (fun k => valuePartialCmp k exFloatCond.value == some .lt)
        | .lte => indexScan idx (fun k =>
            valuePartialCmp k exFloatCond.value == some .lt ||
              valuePartialCmp k exFloatCond.value == some .eq)
      | none =>
        (List.range exFloatTable.data.length).filter
          (fun i => evaluateCondition (exFloatTable.data.getD i []) exFloatCond)) = [1]
    rw [hlk]
    rw [show (List.range exFloatTable.data.length) = [0, 1] from rfl]
    simp only [List.filter_cons, List.filter_nil]
    rw [show (exFloatTable.data.getD 0 []) = [("c", Value.float 0)] from rfl]
    rw [show (exFloatTable.data.getD 1 []) = [("c", Value.float ((2 ^ 53 : Rat)⁻¹))] from rfl]
    rw [h0, h1]
    simp
  · rw [show (exFloatTable.data.getD 1 []) = [("c", Value.float ((2 ^ 53 : Rat)⁻¹))] from rfl]
    exact h1
  · show exFloatTableIdx.indexes.all
        (fun p => p.2 == buildIndex exFloatTableIdx.data p.1) = true
    simp [exFloatTableIdx]

/-- C2 (amended): for a table holding no `Float` values, `select` returns
exactly the rows on which the predicate evaluates true under the per-row
semantics, and the returned position set is the same for any other
consistently-indexed table with the same rows — with `Float` values the
non-transitive epsilon equality used by the index buckets breaks the
agreement (see the counterexample). -/
theorem select_exact_noFloat (t1 t2 : Table) (q : Query)
    (hwf : wellFormedQuery q = true)
    (h1 : indexesConsistent t1 = true) (hnf1 : tableNoFloat t1 = true)
    (h2 : indexesConsistent t2 = true) (hdata : t2.data = t1.data) :
    ∀ i, (i ∈ selectPositions t1 q ↔
            (i < t1.data.length ∧ rowMatches q (t1.data.getD i []) = true))
         ∧ (i ∈ selectPositions t1 q ↔ i ∈ selectPositions t2 q) := by
  intro i
  have hnf2 : tableNoFloat t2 = true := by
    have : tableNoFloat t2 = tableNoFloat t1 := by simp [tableNoFloat, hdata]
    rw [this]
    exact hnf1
  have hwf1 : wellFormedQuery (optimizeQuery t1 q) = true := by
    rw [optimize_wellFormed]
    exact hwf
  have hwf2 : wellFormedQuery (optimizeQuery t2 q) = true := by
    rw [optimize_wellFormed]
    exact hwf
  have hc1 := executeQuery_char h1 hnf1 (optimizeQuery t1 q) hwf1 i
  have hc2 := executeQuery_char h2 hnf2 (optimizeQuery t2 q) hwf2 i
  rw [optimize_rowMatches] at hc1 hc2
  constructor
  · exact hc1
  · rw [show selectPositions t1 q = executeQuery t1 (optimizeQuery t1 q) from rfl,
      show selectPositions t2 q = executeQuery t2 (optimizeQuery t2 q) from rfl]
    rw [hc1, hc2, hdata]

/-- Witness for the amended C2 theorem at a concrete indexed integer
table. -/
theorem select_exact_noFloat_witness :
    1 ∈ selectPositions exIntTable exIntQuery ↔
      (1 < exIntTable.data.length ∧
        rowMatches exIntQuery (exIntTable.data.getD 1 []) = true) :=
  (select_exact_noFloat exIntTable exIntTable exIntQuery (by decide) (by decide)
    (by decide) (by decide) rfl 1).1

/-- C3 (code bug): updating both rows of a `Unique` column to the same
constant passes `update_internal`'s checks (each updated row is compared
against the pre-update rows) and leaves the table with a duplicated
non-null unique value, violating invariant I3 which held beforehand. -/
theorem update_breaks_unique_invariant :
    (exUpdateResult.bind (fun ts => tablesGet ts "t")).map uniqueViolation = some true
    ∧ uniqueViolation exTableU = false := by
  decide

/-- C4 (counterexample): a condition whose value has a different variant
than the row's value does not evaluate false for every operator: `NotEq`
evaluates true. -/
theorem cross_variant_notEq_true :
    evaluateCondition [("c", Value.integer 0)] ⟨"c", .notEq, .str ""⟩ = true := by
  decide

/-- C4 (amended): on mismatched variants, `Eq`, `Gt`, `Gte`, `Lt` and
`Lte` evaluate false, while `NotEq` evaluates true (the negation of the
always-false equality). -/
theorem cross_variant_semantics (row : Row) (colName : String) (v w : Value)
    (op : Operator) (hget : rowGet row colName = some v)
    (hsv : sameVariant v w = false) :
    evaluateCondition row ⟨colName, op, w⟩ = (op == Operator.notEq) := by
  have hueq : valueEq v w = false := by
    cases v <;> cases w <;> simp_all [sameVariant, valueEq]
  have hcmp : valuePartialCmp v w = none := by
    cases v <;> cases w <;> simp_all [sameVariant, valuePartialCmp]
  show (match rowGet row colName with
    | some u => opTest op u w
    | none => false) = (op == Operator.notEq)
  rw [hget]
  cases op <;> simp [opTest, hueq, hcmp]

/-- Witness for the amended C4 theorem: an integer row probed with a
string value. -/
theorem cross_variant_semantics_witness :
    evaluateCondition [("c", Value.integer 0)] ⟨"c", .gte, .str ""⟩ = false ∧
    evaluateCondition [("c", Value.integer 0)] ⟨"c", .eq, .str ""⟩ = false := by
  constructor
  · simpa using cross_variant_semantics [("c", Value.integer 0)] "c"
      (Value.integer 0) (Value.str "") .gte rfl rfl
  · simpa using cross_variant_semantics [("c", Value.integer 0)] "c"
      (Value.integer 0) (Value.str "") .eq rfl rfl

/-- C5 (counterexample): inserting the null variant into a `Unique`
column that already holds null is rejected, because the uniqueness scan
compares with `Value` equality under which `Null == Null`. -/
theorem insert_null_unique_rejected :
    insertInternal [("t", exTableNull)] "t" [("u", Value.null)]
      = .error "Column u must be unique" := by
  rfl

/-- C5 (amended): the `Unique` check fails when some other row holds an
equal value, null included: whenever an insert succeeds, no existing row
held a value equal to the inserted value in any `Unique` column. -/
theorem insert_ok_unique_no_equal (tables : Tables) (tableName : String) (row : Row)
    (table : Table) (htab : tablesGet tables tableName = some table)
    (hok : (insertInternal tables tableName row).isOk = true) :
    ∀ col ∈ table.columns, col.constraints.contains Constraint.unique = true →
      ∀ v, rowGet row col.name = some v →
        table.data.all (fun r => !(optValueEq (rowGet r col.name) (some v))) = true := by
  intro col hcol hconstr v hv
  rcases hres : insertInternal tables tableName row with e | t'
  · rw [hres] at hok
    simp [Except.isOk, Except.toBool] at hok
  · have hchecks := insertInternal_ok_checks htab hres
    have hcolok := insertCheckColumns_ok_all hchecks col hcol
    have hconstrok := insertCheckColumn_constraints_ok hcolok
    have hmem : Constraint.unique ∈ col.constraints := by
      simpa [List.contains_iff_exists_mem_beq, beq_iff_eq] using hconstr
    have huniq := checkConstraints_ok_all hconstrok Constraint.unique hmem
    simp only [checkConstraint, hv] at huniq
    by_cases hany : anyRowWithValue table.data col.name v none = true
    · rw [if_pos hany] at huniq
      exact absurd huniq (by simp)
    · rw [anyRowWithValue_none_eq_any] at hany
      rw [List.all_eq_true]
      intro r hr
      cases hopt : optValueEq (rowGet r col.name) (some v)
      · simp
      · exact absurd (List.any_eq_true.mpr ⟨r, hr, hopt⟩) hany

/-- Witness for the amended C5 theorem: a successful insert into a table
whose unique column holds 1. -/
theorem insert_ok_unique_no_equal_witness :
    exTableU.data.all
      (fun r => !(optValueEq (rowGet r "u") (some (Value.integer 5)))) = true :=
  insert_ok_unique_no_equal exTablesU "t" [("u", Value.integer 5)] exTableU rfl
    (by decide) ⟨"u", .integer, [.unique]⟩ (by decide) (by decide)
    (Value.integer 5) rfl

/-- C6: `load` (modelled from after the decrypt/decompress/deserialize
pipeline) rebuilds each restored table's Merkle tree and per-column
indexes — exactly the `Unique`-constrained columns, consistent with the
restored rows — and then replays the WAL, where `CreateTable`, `Insert`
and `Delete` entries take effect exactly as the corresponding public API
calls would (errors discarded) and `Update` entries are silently skipped
(filtering them out of the WAL does not change the result). -/
theorem load_rebuilds_and_replays (snapshot : Tables) (wal : List WalEntry) :
    loadTables snapshot wal
        = replayWal (rebuildTables snapshot) (wal.filter (fun e => !(isUpdateEntry e)))
    ∧ (∀ p ∈ rebuildTables snapshot,
        indexesConsistent p.2 = true ∧ p.2.merkle = some p.2.data ∧
        p.2.indexes.map Prod.fst
          = (p.2.columns.filter
              (fun c => c.constraints.contains Constraint.unique)).map Column.name)
    ∧ (∀ (ts : Tables) (n : String) (cs : List Column),
        applyWalEntry ts (.createTable n cs)
          = (match createTableDb ts n cs with | .ok t => t | .error _ => ts))
    ∧ (∀ (ts : Tables) (n : String) (r : Row),
        applyWalEntry ts (.insertEntry n r)
          = (match insertInternal ts n r with | .ok t => t | .error _ => ts))
    ∧ (∀ (ts : Tables) (n : String) (q : Query),
        applyWalEntry ts (.deleteEntry n q)
          = (match deleteInternal ts n q with | .ok t => t.1 | .error _ => ts))
    ∧ (∀ (ts : Tables) (n : String) (q : Query),
        applyWalEntry ts (.updateEntry n q) = ts) := by
  refine ⟨replayWal_skips_updates wal (rebuildTables snapshot), ?_,
    fun _ _ _ => rfl, fun _ _ _ => rfl, fun _ _ _ => rfl, fun _ _ _ => rfl⟩
  intro p hp
  obtain ⟨⟨n, t⟩, hmem, rfl⟩ := List.mem_map.mp hp
  refine ⟨?_, rfl, ?_⟩
  · show (rebuildTable t).indexes.all
      (fun p => p.2 == buildIndex (rebuildTable t).data p.1) = true
    rw [List.all_eq_true]
    intro q hq
    have hq' : q ∈ (t.columns.filter
        (fun c => c.constraints.contains Constraint.unique)).map
          (fun c => (c.name, buildIndex t.data c.name)) := hq
    obtain ⟨c, hc, rfl⟩ := List.mem_map.mp hq'
    simp [rebuildTable, buildMerkleTree]
  · show ((t.columns.filter (fun c => c.constraints.contains Constraint.unique)).map
        (fun c => (c.name, buildIndex t.data c.name))).map Prod.fst = _
    rw [List.map_map]
    rfl

/-- Witness for C6 at a one-table snapshot and a WAL holding an `Update`
followed by an `Insert`. -/
theorem load_rebuilds_and_replays_witness :
    loadTables [("t", exSnapTable)] exWal
        = replayWal (rebuildTables [("t", exSnapTable)])
            (exWal.filter (fun e => !(isUpdateEntry e)))
    ∧ indexesConsistent (rebuildTable exSnapTable) = true :=
  ⟨(load_rebuilds_and_replays [("t", exSnapTable)] exWal).1,
    ((load_rebuilds_and_replays [("t", exSnapTable)] exWal).2.1
      ("t", rebuildTable exSnapTable)
      (by simp [rebuildTables])).1⟩

/-- C7 (counterexample): the planner does not sort the children of `And`
nodes at every nesting depth: an `And` nested inside the top-level `And`
keeps its children in cost order 10, 1. -/
theorem nested_and_not_sorted :
    optimizeQuery exPlanTable (.and [.and [exCondNoIdx, exCondIdx]])
        = .and [.and [exCondNoIdx, exCondIdx]]
    ∧ estimateCost exPlanTable exCondNoIdx = 10
    ∧ estimateCost exPlanTable exCondIdx = 1 := by
  refine ⟨?_, by decide, by decide⟩
  show Query.and (List.mergeSort [.and [exCondNoIdx, exCondIdx]] _) = _
  rw [List.mergeSort_singleton]

/-- C7 (amended): the planner costs a condition leaf 1 when its column is
indexed and 10 otherwise, gives the sentinel cost 100 to unsupported node
kinds, sorts the immediate children of a top-level `And` in ascending
cost order (a permutation, semantically equivalent), and leaves `Or`
nodes (and hence any nested `And`) unchanged. -/
theorem planner_costs_and_sorts (table : Table) :
    (∀ c : Condition, estimateCost table (.condition c)
        = if (lookupStr table.indexes c.column).isSome then 1 else 10)
    ∧ estimateCost table .matchAll = 100
    ∧ (∀ j : Join, estimateCost table (.join j) = 100)
    ∧ (∀ (f : AggregateFunction) (c : String) (o : Option Query),
        estimateCost table (.aggregate f c o) = 100)
    ∧ (∀ qs : List Query,
        match optimizeQuery table (.and qs) with
        | .and qs' =>
          qs'.Pairwise (fun a b => estimateCost table a ≤ estimateCost table b)
            ∧ qs'.Perm qs
        | _ => False)
    ∧ (∀ qs : List Query, optimizeQuery table (.or qs) = .or qs)
    ∧ (∀ (q : Query) (r : Row),
        rowMatches (optimizeQuery table q) r = rowMatches q r) := by
  refine ⟨fun c => rfl, rfl, fun j => rfl, fun f c o => rfl, ?_, fun qs => rfl,
    fun q r => optimize_rowMatches⟩
  intro qs
  show (match Query.and (qs.mergeSort _) with
    | .and qs' => qs'.Pairwise (fun a b => estimateCost table a ≤ estimateCost table b)
        ∧ qs'.Perm qs
    | _ => False)
  exact ⟨optimize_and_sorted table qs, List.mergeSort_perm qs _⟩

/-- C8: for every table, aggregate function, column and filter query,
the aggregate computed with the filter equals the aggregate computed with
no filter over a table holding exactly the rows the filter selects. -/
theorem aggregate_filter_eq_postfilter (table : Table) (fn : AggregateFunction)
    (column : String) (f : Query) :
    executeAggregateQuery table fn column (some f)
      = executeAggregateQuery (rowsOnlyTable (filterSelectedRows table f)) fn column none := by
  cases fn <;> rfl

/-- C9: a Left join emits, for each left row, one merged row per matching
right row (in right-table order) and exactly one null-padded row when
there is no match; in a merged row the right row's value wins on key
collision. -/
theorem left_join_semantics :
    (∀ (leftTable rightTable : Table) (name lc rc : String),
      executeJoinQuery leftTable rightTable ⟨.left, name, (lc, rc)⟩
        = leftTable.data.flatMap (fun l =>
            let ms := rightTable.data.filter
              (fun r => optValueEq (rowGet l lc) (rowGet r rc))
            if ms.isEmpty then [padWithNulls l rightTable.columns]
            else ms.map (fun r => rowExtend l r)))
    ∧ (∀ (l r : Row), (r.map Prod.fst).Nodup → ∀ k,
        rowGet (rowExtend l r) k
          = (match rowGet r k with | some v => some v | none => rowGet l k)) :=
  ⟨fun _ _ _ _ _ => leftJoin_eq, fun _ _ hnd k => rowGet_rowExtend hnd k⟩

/-- Witness for C9: the left join of the one-row example tables on a
column neither side has, and a right-wins merge of two one-column rows. -/
theorem left_join_semantics_witness :
    executeJoinQuery exLeftTable exRightTable ⟨.left, "r", ("c", "c")⟩
        = exLeftTable.data.flatMap (fun l =>
            let ms := exRightTable.data.filter
              (fun r => optValueEq (rowGet l "c") (rowGet r "c"))
            if ms.isEmpty then [padWithNulls l exRightTable.columns]
            else ms.map (fun r => rowExtend l r))
    ∧ rowGet (rowExtend [("a", Value.integer 1)] [("a", Value.integer 2)]) "a"
        = some (Value.integer 2) := by
  constructor
  · exact left_join_semantics.1 exLeftTable exRightTable "r" "c" "c"
  · have h := left_join_semantics.2 [("a", Value.integer 1)] [("a", Value.integer 2)]
      (by decide) "a"
    simpa using h

/-- C10: in all three join types, a left row and a right row whose join
columns are equal as options — including both absent and both null —
produce the merged row in the output. -/
theorem join_matches_option_equal (jt : JoinType) (leftTable rightTable : Table)
    (name lc rc : String) (l r : Row)
    (hl : l ∈ leftTable.data) (hr : r ∈ rightTable.data)
    (hopt : optValueEq (rowGet l lc) (rowGet r rc) = true) :
    rowExtend l r ∈ executeJoinQuery leftTable rightTable ⟨jt, name, (lc, rc)⟩ := by
  cases jt with
  | inner =>
    rw [innerJoin_eq]
    exact List.mem_flatMap.mpr ⟨l, hl,
      List.mem_map.mpr ⟨r, List.mem_filter.mpr ⟨hr, hopt⟩, rfl⟩⟩
  | left =>
    rw [leftJoin_eq]
    refine List.mem_flatMap.mpr ⟨l, hl, ?_⟩
    have hrm : r ∈ rightTable.data.filter
        (fun r => optValueEq (rowGet l lc) (rowGet r rc)) :=
      List.mem_filter.mpr ⟨hr, hopt⟩
    have hne : (rightTable.data.filter
        (fun r => optValueEq (rowGet l lc) (rowGet r rc))).isEmpty = false := by
      cases hE : (rightTable.data.filter
          (fun r => optValueEq (rowGet l lc) (rowGet r rc))).isEmpty
      · rfl
      · rw [List.isEmpty_iff.mp hE] at hrm
        simp at hrm
    simp only [hne, Bool.false_eq_true, if_neg, not_false_iff]
    exact List.mem_map.mpr ⟨r, hrm, rfl⟩
  | right =>
    rw [rightJoin_eq]
    refine List.mem_flatMap.mpr ⟨r, hr, ?_⟩
    have hlm : l ∈ leftTable.data.filter
        (fun l => optValueEq (rowGet l lc) (rowGet r rc)) :=
      List.mem_filter.mpr ⟨hl, hopt⟩
    have hne : (leftTable.data.filter
        (fun l => optValueEq (rowGet l lc) (rowGet r rc))).isEmpty = false := by
      cases hE : (leftTable.data.filter
          (fun l => optValueEq (rowGet l lc) (rowGet r rc))).isEmpty
      · rfl
      · rw [List.isEmpty_iff.mp hE] at hlm
        simp at hlm
    simp only [hne, Bool.false_eq_true, if_neg, not_false_iff]
    exact List.mem_map.mpr ⟨l, hlm, rfl⟩

/-- Witness for C10: two rows that both lack the join column are emitted
merged by the inner join. -/
theorem join_matches_option_equal_witness :
    rowExtend [("x", Value.integer 1)] [("y", Value.integer 2)]
      ∈ executeJoinQuery exLeftTable exRightTable ⟨.inner, "r", ("c", "c")⟩ :=
  join_matches_option_equal .inner exLeftTable exRightTable "r" "c" "c"
    [("x", Value.integer 1)] [("y", Value.integer 2)]
    (by decide) (by decide) (by decide)

end ZapDB

